import Mathlib

/- Verification of the metadev i18n key-extraction and merge commands.

   Go strings are modelled as lists of characters (`Str`); Go maps as
   association lists with overwrite-on-insert (`goInsert`/`goLookup`); the
   two fixed regular expressions of i18n.go are modelled by deterministic
   matchers.  Determinism is exact: in both patterns every starred or
   plus-quantified character class is disjoint from the character that the
   following component must accept, so the leftmost-first backtracking
   search of Go's regexp engine coincides with maximal-munch matching. -/

/-- A Go string, modelled as its character sequence. -/
abbrev Str := List Char

/-- The single-quote character. -/
def squote : Char := Char.ofNat 39

/-- The double-quote character. -/
def dquote : Char := Char.ofNat 34

/-- The opening-brace character. -/
def lbrace : Char := Char.ofNat 123

/-- The closing-brace character. -/
def rbrace : Char := Char.ofNat 125

/-- The newline character. -/
def nlChar : Char := Char.ofNat 10

/-- Go regexp whitespace class (backslash-s): tab, newline, form feed,
carriage return, space. -/
def isGoSpace (c : Char) : Bool :=
  c = ' ' || c = Char.ofNat 9 || c = nlChar || c = Char.ofNat 12 || c = Char.ofNat 13

/-- Go regexp word class (backslash-w): ASCII alphanumerics and underscore. -/
def isWordChar (c : Char) : Bool :=
  ('a' ≤ c && c ≤ 'z') || ('A' ≤ c && c ≤ 'Z') || ('0' ≤ c && c ≤ '9') || c = '_'

/-- The class [A-Za-z] of the call pattern. -/
def isAsciiLetter (c : Char) : Bool :=
  ('a' ≤ c && c ≤ 'z') || ('A' ≤ c && c ≤ 'Z')

/-- The class [A-Za-z0-9] of the call pattern. -/
def isAsciiAlnum (c : Char) : Bool :=
  isAsciiLetter c || ('0' ≤ c && c ≤ '9')

/-- The quote class of both patterns: single or double quote. -/
def isQuote (c : Char) : Bool := c = squote || c = dquote

/-- Match a fixed literal component of a pattern, returning the rest of the
input on success. -/
def litP : Str → Str → Option Str
  | [], s => some s
  | _ :: _, [] => none
  | c :: cs, d :: ds => if d = c then litP cs ds else none

/-- Consume a (possibly empty) maximal run of whitespace: backslash-s-star. -/
def spacesP (s : Str) : Str := s.dropWhile isGoSpace

/-- Capture a maximal nonempty run of word characters: (backslash-w-plus). -/
def wordP (s : Str) : Option (Str × Str) :=
  match s.takeWhile isWordChar with
  | [] => none
  | c :: cs => some (c :: cs, s.dropWhile isWordChar)

/-- Capture a quoted literal: a quote, a maximal nonempty run of non-quote
characters, and a closing quote.  The two quotes need not agree, exactly as
in the character-class pair of the source regexes. -/
def quotedP (s : Str) : Option (Str × Str) :=
  match s with
  | [] => none
  | q :: s1 =>
    if isQuote q then
      match s1.takeWhile (fun c => !(isQuote c)), s1.dropWhile (fun c => !(isQuote c)) with
      | [], _ => none
      | _, [] => none
      | c :: cs, _ :: s2 => some (c :: cs, s2)
    else none

/-- One attempt of the declaration regex of i18n.go at the head of the input:
const then braces, t-colon, an alias of word characters, equals,
useTranslation, and one quoted namespace in parentheses, with free
whitespace; returns ((alias, namespace), rest). -/
def matchDeclAt (s : Str) : Option ((Str × Str) × Str) :=
  (litP (("const").data) s).bind fun s1 =>
  (litP [lbrace] (spacesP s1)).bind fun s2 =>
  (litP (("t:").data) (spacesP s2)).bind fun s3 =>
  (wordP (spacesP s3)).bind fun xv =>
  (litP [rbrace] (spacesP xv.2)).bind fun s4 =>
  (litP [('=' : Char)] (spacesP s4)).bind fun s5 =>
  (litP (("useTranslation").data) (spacesP s5)).bind fun s6 =>
  (litP [('(' : Char)] (spacesP s6)).bind fun s7 =>
  (quotedP (spacesP s7)).bind fun nsv =>
  (litP [(')' : Char)] (spacesP nsv.2)).bind fun s8 =>
  some ((xv.1, nsv.1), s8)

/-- One attempt of the call regex of i18n.go at the head of the input
(the word boundary is checked by the scanner): a lowercase t, an ASCII
letter, a maximal run of ASCII alphanumerics, and one quoted key in
parentheses; returns ((alias, key), rest). -/
def matchCallAt (s : Str) : Option ((Str × Str) × Str) :=
  match s with
  | t :: c :: s1 =>
    if t = 't' && isAsciiLetter c then
      (litP [('(' : Char)] (spacesP (s1.dropWhile isAsciiAlnum))).bind fun s2 =>
      (quotedP (spacesP s2)).bind fun kv =>
      (litP [(')' : Char)] (spacesP kv.2)).bind fun s3 =>
      some (('t' :: c :: s1.takeWhile isAsciiAlnum, kv.1), s3)
    else none
  | _ => none

/-- Fuelled declaration scanner; the fuel only drives structural recursion
and any fuel at least the input length gives the Go FindAllStringSubmatch
semantics: repeated leftmost matching, resuming after each match. -/
def scanDeclsF : Nat → Str → List (Str × Str)
  | 0, _ => []
  | Nat.succ n, s =>
    match matchDeclAt s with
    | some v => v.1 :: scanDeclsF n v.2
    | none =>
      match s with
      | [] => []
      | _ :: rest => scanDeclsF n rest

/-- All declaration (alias, namespace) matches of a file content, in match
order. -/
def scanDecls (s : Str) : List (Str × Str) := scanDeclsF s.length s

/-- Fuelled call scanner.  The Bool records whether the previous character
was a word character, which decides the leading word boundary of the call
regex; a position whose predecessor is a word character cannot start a
match.  Every match ends in a closing parenthesis, so after a match the
boundary flag is false. -/
def scanCallsF : Nat → Bool → Str → List (Str × Str)
  | 0, _, _ => []
  | Nat.succ n, prevWord, s =>
    match s with
    | [] => []
    | cc :: rest =>
      if prevWord then scanCallsF n (isWordChar cc) rest
      else
        match matchCallAt (cc :: rest) with
        | some v => v.1 :: scanCallsF n false v.2
        | none => scanCallsF n (isWordChar cc) rest

/-- The call scanner with explicit boundary state and sufficient fuel. -/
def scanCallsAux (prevWord : Bool) (s : Str) : List (Str × Str) :=
  scanCallsF s.length prevWord s

/-- All call-site (alias, key) matches of a file content, in match order. -/
def scanCalls (s : Str) : List (Str × Str) := scanCallsAux false s

/-- Lookup in a Go map modelled as an association list. -/
def goLookup {α β : Type} [DecidableEq α] : List (α × β) → α → Option β
  | [], _ => none
  | (k, v) :: m, key => if key = k then some v else goLookup m key

/-- Assignment m[k] = v in a Go map: overwrite the binding if present,
append it otherwise. -/
def goInsert {α β : Type} [DecidableEq α] : List (α × β) → α → β → List (α × β)
  | [], k, v => [(k, v)]
  | (k0, v0) :: m, k, v => if k = k0 then (k, v) :: m else (k0, v0) :: goInsert m k v

/-- The alias-to-namespace map of i18n.go. -/
abbrev GoMap := List (Str × Str)

/-- Fold a list of (alias, namespace) matches into a map, later matches
overwriting earlier ones: the loop body translationMap[tVariable] = namespace. -/
def buildFileMap (decls : List (Str × Str)) : GoMap :=
  decls.foldl (fun m kv => goInsert m kv.1 kv.2) []

/-- extractUseTranslationDeclarations of i18n.go, as a function of the file
content: all declaration matches folded into a per-file map. -/
def extractUseTranslationDeclarations (content : Str) : GoMap :=
  buildFileMap (scanDecls content)

/-- The merge loop of the first pass: globalTranslationMap[tVar] = namespace
for every binding of one file map. -/
def mergeGlobal (g : GoMap) (fileMap : GoMap) : GoMap :=
  fileMap.foldl (fun g2 kv => goInsert g2 kv.1 kv.2) g

/-- First pass of extractTranslationKeys: the project-wide alias map, built
over the corpus (a list of (path, content) pairs in directory-walk order). -/
def buildGlobalMap (files : List (Str × Str)) : GoMap :=
  files.foldl (fun g f => mergeGlobal g (extractUseTranslationDeclarations f.2)) []

/-- strings.HasPrefix(tVariable, t-string). -/
def hasPrefixT (s : Str) : Bool :=
  match s with
  | c :: _ => c = 't'
  | [] => false

/-- ASCII lowering; strings.ToLower restricted to the ASCII aliases the call
pattern can produce, where Go's Unicode lowering agrees with it. -/
def lowerChar (c : Char) : Char :=
  if 'A' ≤ c ∧ c ≤ 'Z' then Char.ofNat (c.toNat + 32) else c

/-- One translation key occurrence: (key, namespace, source file). -/
structure TranslationKey where
  Key : Str
  Namespace : Str
  File : Str
deriving DecidableEq

/-- The namespace-resolution branch of parseFileWithMapping (lines 442-453):
the global map wins; otherwise an alias with leading t and length over one
yields its lowercased remainder; otherwise the literal common. -/
def resolveNamespace (globalMapping : GoMap) (tVariable : Str) : Str :=
  match goLookup globalMapping tVariable with
  | some ns => ns
  | none =>
    if hasPrefixT tVariable && decide (1 < tVariable.length) then
      (tVariable.drop 1).map lowerChar
    else
      ("common").data

/-- parseFileWithMapping of i18n.go: one TranslationKey per call match, with
the namespace resolved from the alias. -/
def parseFileWithMapping (globalMapping : GoMap) (filePath : Str) (content : Str) :
    List TranslationKey :=
  (scanCalls content).map fun ak =>
    { Key := ak.2, Namespace := resolveNamespace globalMapping ak.1, File := filePath }

/-- extractTranslationKeys of i18n.go over a corpus of (path, content) pairs:
first pass builds the global alias map, second pass extracts all entries. -/
def extractTranslationKeys (files : List (Str × Str)) : List TranslationKey :=
  (files.map fun f => parseFileWithMapping (buildGlobalMap files) f.1 f.2).flatten

/-- The keys of all entries of one namespace, in entry order (the
namespaceKeys grouping of generateTranslationFiles). -/
def keysFor (keys : List TranslationKey) (ns : Str) : List Str :=
  (keys.filter fun k => decide (k.Namespace = ns)).map TranslationKey.Key

/-- The key list persisted for one namespace: deduplicated (the uniqueKeys
set) and sorted (encoding/json serializes map keys in sorted order). -/
def sortedDedup (l : List Str) : List Str :=
  List.insertionSort (fun a b : Str => a ≤ b) l.dedup

/-- Lowercase hexadecimal digit, as used by encoding/json escapes. -/
def hexDigit (n : Nat) : Char :=
  if n < 10 then Char.ofNat (48 + n) else Char.ofNat (87 + n)

/-- encoding/json string escaping (default HTML-escaping encoder). -/
def escapeJSONChar (c : Char) : Str :=
  if c = dquote then ['\\', dquote]
  else if c = '\\' then ['\\', '\\']
  else if c = nlChar then ['\\', 'n']
  else if c = Char.ofNat 13 then ['\\', 'r']
  else if c = Char.ofNat 9 then ['\\', 't']
  else if c.toNat < 32 || c = '<' || c = '>' || c = '&' then
    ['\\', 'u', '0', '0', hexDigit (c.toNat / 16), hexDigit (c.toNat % 16)]
  else if c = Char.ofNat 8232 then ('\\' :: 'u' :: ("2028").data)
  else if c = Char.ofNat 8233 then ('\\' :: 'u' :: ("2029").data)
  else [c]

/-- A JSON string literal. -/
def jsonQuote (s : Str) : Str :=
  dquote :: (s.map escapeJSONChar).flatten ++ [dquote]

/-- One indented member line of the serialized object (two-space indent). -/
def pairLine (kv : Str × Str) : Str :=
  ' ' :: ' ' :: (jsonQuote kv.1 ++ ':' :: ' ' :: jsonQuote kv.2)

/-- Join member lines with comma-newline. -/
def sepJoin : List Str → Str
  | [] => []
  | [a] => a
  | a :: b :: rest => a ++ ',' :: nlChar :: sepJoin (b :: rest)

/-- json.MarshalIndent of a flat object with two-space indentation, members
given in serialization (sorted) order. -/
def marshalPairs (ps : List (Str × Str)) : Str :=
  match ps with
  | [] => [lbrace, rbrace]
  | _ :: _ => lbrace :: nlChar :: sepJoin (ps.map pairLine) ++ nlChar :: [rbrace]

/-- The byte content generateTranslationFiles writes for a namespace: none
when the namespace has no extracted entry (no file is created), otherwise
the serialized object mapping each deduplicated key to the empty string. -/
def genContent (keys : List TranslationKey) (ns : Str) : Option Str :=
  match keysFor keys ns with
  | [] => none
  | l => some (marshalPairs ((sortedDedup l).map fun k => (k, ([] : Str))))

/-- The file name generateTranslationFiles uses for a namespace. -/
def outputFileName (ns : Str) : Str := ns ++ (".json").data

/-- One key-merge step of mergeJSONFiles: unseen keys are added; an empty
stored value is overwritten by a non-empty incoming one; a non-empty stored
value is kept. -/
def mergePair (merged : GoMap) (k v : Str) : GoMap :=
  match goLookup merged k with
  | none => goInsert merged k v
  | some existing => if existing = [] ∧ v ≠ [] then goInsert merged k v else merged

/-- Merge one parsed file into the accumulator, pair by pair. -/
def mergeFile (m : GoMap) (f : List (Str × Str)) : GoMap :=
  f.foldl (fun m2 kv => mergePair m2 kv.1 kv.2) m

/-- mergeJSONFiles of join_i18n.go on already-parsed file contents, in the
order given on the command line. -/
def mergeJSONFilesPure (fs : List (List (Str × Str))) : GoMap :=
  fs.foldl mergeFile []

/-- One value-merge step of the per-key policy: an unseen key takes the
incoming value, an empty stored value yields to a non-empty incoming one,
and a non-empty stored value is kept. -/
def mergeStep (acc : Option Str) (v : Str) : Option Str :=
  match acc with
  | none => some v
  | some e => if e = [] ∧ v ≠ [] then some v else some e

/-- The winning value for one key given the values the key has in file
order (the loop of mergeJSONFiles projected to one key). -/
def mergeVals (vs : List Str) : Option Str :=
  vs.foldl mergeStep none

/-- The values a key has across the parsed files, in file order. -/
def valuesOf (k : Str) (fs : List (List (Str × Str))) : List Str :=
  fs.filterMap fun f => goLookup f k

/-- A file system for the merge command: path to parse outcome; a missing
path is absent, (path, none) is present but not a flat string-to-string
object, (path, some m) parses to the flat object m. -/
abbrev FileSystem := List (Str × Option (List (Str × Str)))

/-- The per-argument validation of runJoinI18n: extension first, then
existence, reported with the first failure. -/
def validateArg (fsys : FileSystem) (a : Str) : Option Str :=
  if ¬ ((".json").data.isSuffixOf a) then some (("not a JSON file: ").data ++ a)
  else
    match goLookup fsys a with
    | none => some (("file does not exist: ").data ++ a)
    | some _ => none

/-- The validation loop of runJoinI18n over all arguments, before any file
content is read. -/
def firstError (fsys : FileSystem) (args : List Str) : Option Str :=
  args.findSome? (validateArg fsys)

/-- The read-parse-merge loop of mergeJSONFiles, aborting on the first
unreadable or unparseable file. -/
def readAndMerge (fsys : FileSystem) (args : List Str) : Except Str GoMap :=
  args.foldlM
    (fun m a =>
      match goLookup fsys a with
      | none => Except.error (("failed to read file ").data ++ a)
      | some none => Except.error (("failed to parse JSON in file ").data ++ a)
      | some (some fdata) => Except.ok (mergeFile m fdata))
    []

/-- runJoinI18n of join_i18n.go: validate every argument, then merge, then
choose the output name (the flag, or the random name) and produce the output;
an error produces no output at all. -/
def runJoinI18n (fsys : FileSystem) (args : List Str) (outputFlag : Option Str)
    (randomName : Str) : Except Str (Str × GoMap) :=
  match firstError fsys args with
  | some e => Except.error e
  | none =>
    match readAndMerge fsys args with
    | Except.error e => Except.error (("Error merging files: ").data ++ e)
    | Except.ok merged =>
      let out0 := match outputFlag with | some o => o | none => randomName
      let out := if (".json").data.isSuffixOf out0 then out0 else out0 ++ (".json").data
      Except.ok (out, merged)

/-- The pieces of one textual occurrence of the declaration pattern: nine
whitespace runs, the two quotes, the alias and the namespace. -/
structure DeclParts where
  w1 : Str
  w2 : Str
  w3 : Str
  w4 : Str
  w5 : Str
  w6 : Str
  w7 : Str
  w8 : Str
  w9 : Str
  q1 : Char
  q2 : Char
  tVar : Str
  ns : Str

/-- The concrete text of the declaration occurrence. -/
def DeclParts.text (d : DeclParts) : Str :=
  ("const").data ++ d.w1 ++
    lbrace :: (d.w2 ++ ("t:").data ++ d.w3 ++ d.tVar ++ d.w4 ++
      rbrace :: (d.w5 ++
        '=' :: (d.w6 ++ ("useTranslation").data ++ d.w7 ++
          '(' :: (d.w8 ++ d.q1 :: (d.ns ++ d.q2 :: (d.w9 ++ [(')' : Char)]))))))

/-- Well-formedness of the pieces: whitespace runs are whitespace, the
quotes are quotes, the alias is a nonempty word-character run, the
namespace is nonempty and quote-free. -/
def DeclParts.WF (d : DeclParts) : Prop :=
  (∀ c ∈ d.w1, isGoSpace c = true) ∧ (∀ c ∈ d.w2, isGoSpace c = true) ∧
  (∀ c ∈ d.w3, isGoSpace c = true) ∧ (∀ c ∈ d.w4, isGoSpace c = true) ∧
  (∀ c ∈ d.w5, isGoSpace c = true) ∧ (∀ c ∈ d.w6, isGoSpace c = true) ∧
  (∀ c ∈ d.w7, isGoSpace c = true) ∧ (∀ c ∈ d.w8, isGoSpace c = true) ∧
  (∀ c ∈ d.w9, isGoSpace c = true) ∧
  isQuote d.q1 = true ∧ isQuote d.q2 = true ∧
  d.tVar ≠ [] ∧ (∀ c ∈ d.tVar, isWordChar c = true) ∧
  d.ns ≠ [] ∧ (∀ c ∈ d.ns, isQuote c = false)

/-- The pieces of one textual occurrence of the call pattern: the alias is
the lowercase t, the letter c0 and the alphanumeric run rest0. -/
structure CallParts where
  w1 : Str
  w2 : Str
  w3 : Str
  q1 : Char
  q2 : Char
  c0 : Char
  rest0 : Str
  key : Str

/-- The alias of the call occurrence. -/
def CallParts.tVar (p : CallParts) : Str := 't' :: p.c0 :: p.rest0

/-- The concrete text of the call occurrence. -/
def CallParts.text (p : CallParts) : Str :=
  't' :: p.c0 :: (p.rest0 ++ p.w1 ++
    '(' :: (p.w2 ++ p.q1 :: (p.key ++ p.q2 :: (p.w3 ++ [(')' : Char)]))))

/-- Well-formedness of the call pieces. -/
def CallParts.WF (p : CallParts) : Prop :=
  (∀ c ∈ p.w1, isGoSpace c = true) ∧ (∀ c ∈ p.w2, isGoSpace c = true) ∧
  (∀ c ∈ p.w3, isGoSpace c = true) ∧
  isQuote p.q1 = true ∧ isQuote p.q2 = true ∧
  isAsciiLetter p.c0 = true ∧ (∀ c ∈ p.rest0, isAsciiAlnum c = true) ∧
  p.key ≠ [] ∧ (∀ c ∈ p.key, isQuote c = false)

/-- Left-biased choice on options. -/
def orO {α : Type} : Option α → Option α → Option α
  | some v, _ => some v
  | none, b => b

/-- The value the last binding of a key in a match list assigns to it. -/
def lastVal (l : List (Str × Str)) (k : Str) : Option Str :=
  l.foldl (fun acc kv => if kv.1 = k then some kv.2 else acc) none

/-- A singleton or empty list from an optional value. -/
def optToList {α : Type} : Option α → List α
  | none => []
  | some v => [v]

/-- The namespace does not consist of optional whitespace followed by a
closing parenthesis; this is the one condition under which an earlier
unclosed quote can swallow a later declaration. -/
def nsSafe (ns : Str) : Bool :=
  match ns.dropWhile isGoSpace with
  | [] => true
  | c :: _ => decide (c ≠ ')')

/-- The part of the declaration text before its opening quote. -/
def DeclParts.pre (d : DeclParts) : Str :=
  ("const").data ++ d.w1 ++
    lbrace :: (d.w2 ++ ("t:").data ++ d.w3 ++ d.tVar ++ d.w4 ++
      rbrace :: (d.w5 ++
        '=' :: (d.w6 ++ ("useTranslation").data ++ d.w7 ++
          '(' :: d.w8)))

/-- The part of the declaration text after the opening brace. -/
def DeclParts.afterBrace (d : DeclParts) (q : Str) : Str :=
  d.w2 ++ ("t:").data ++ d.w3 ++ d.tVar ++ d.w4 ++
    rbrace :: (d.w5 ++
      '=' :: (d.w6 ++ ("useTranslation").data ++ d.w7 ++
        '(' :: (d.w8 ++ d.q1 :: (d.ns ++ d.q2 :: (d.w9 ++ ')' :: q)))))

/-- A concrete well-formed declaration used to exercise the collection
theorem. -/
def dWit : DeclParts :=
  { w1 := [' '], w2 := [' '], w3 := [' '], w4 := [' '], w5 := [' '], w6 := [' '],
    w7 := [], w8 := [], w9 := [], q1 := squote, q2 := squote,
    tVar := ("tUser").data, ns := ("user").data }

/-- A declaration whose namespace starts with a closing parenthesis. -/
def cexD : DeclParts :=
  { w1 := [' '], w2 := [' '], w3 := [' '], w4 := [' '], w5 := [' '], w6 := [' '],
    w7 := [], w8 := [], w9 := [], q1 := squote, q2 := squote,
    tVar := ("x").data, ns := (")y").data }

/-- Text preceding the declaration: an unclosed quote inside an earlier
useTranslation call. -/
def cexPrefix : Str :=
  ("const ").data ++ lbrace :: (" t: a ").data ++ rbrace :: (" = useTranslation(").data ++ [squote, 'Z']

/-- A file content containing the declaration cexD.text verbatim. -/
def cexContent : Str := cexPrefix ++ (cexD.text ++ [])

theorem litP_eq_some {p s r : Str} : litP p s = some r ↔ s = p ++ r := by
  induction p generalizing s with
  | nil => simp [litP]
  | cons c cs ih =>
    cases s with
    | nil => simp [litP]
    | cons d ds =>
      by_cases h : d = c
      · subst h; simp [litP, ih]
      · simp [litP, h, Ne.symm h]

theorem litP_append (p r : Str) : litP p (p ++ r) = some r :=
  litP_eq_some.mpr rfl

theorem dropWhile_length_le (p : Char → Bool) (s : Str) :
    (s.dropWhile p).length ≤ s.length := by
  induction s with
  | nil => simp
  | cons c cs ih =>
    rw [List.dropWhile_cons]
    split
    · exact Nat.le_succ_of_le ih
    · simp

theorem spacesP_length (s : Str) : (spacesP s).length ≤ s.length :=
  dropWhile_length_le isGoSpace s

theorem wordP_eq_some {s x r : Str} (h : wordP s = some (x, r)) :
    x ≠ [] ∧ x ++ r = s ∧ x = s.takeWhile isWordChar ∧ r = s.dropWhile isWordChar := by
  unfold wordP at h
  split at h
  · exact absurd h (by simp)
  · rename_i c cs heq
    simp only [Option.some.injEq, Prod.mk.injEq] at h
    obtain ⟨h1, h2⟩ := h
    refine ⟨by simp [← h1], ?_, by rw [← h1, heq], h2.symm⟩
    rw [← h1, ← h2, ← heq]
    exact List.takeWhile_append_dropWhile _ _

theorem quotedP_eq_some {s b r : Str} (h : quotedP s = some (b, r)) :
    ∃ q1 q2 s1, s = q1 :: s1 ∧ isQuote q1 = true ∧ b ≠ [] ∧
      b = s1.takeWhile (fun c => !(isQuote c)) ∧ s1 = b ++ q2 :: r := by
  unfold quotedP at h
  split at h
  · exact absurd h (by simp)
  · rename_i q s1
    split at h
    · rename_i hq
      split at h
      · exact absurd h (by simp)
      · exact absurd h (by simp)
      · rename_i c cs q2 s2 htake hdrop
        simp only [Option.some.injEq, Prod.mk.injEq] at h
        obtain ⟨hb, hr⟩ := h
        refine ⟨q, q2, s1, rfl, hq, by simp [← hb], by rw [← hb, htake], ?_⟩
        have hsplit := List.takeWhile_append_dropWhile (fun c => !(isQuote c)) s1
        rw [htake, hdrop] at hsplit
        rw [← hb, ← hr]
        exact hsplit.symm
    · exact absurd h (by simp)

theorem quotedP_length {s b r : Str} (h : quotedP s = some (b, r)) :
    r.length + 2 ≤ s.length := by
  obtain ⟨q1, q2, s1, hs, _, hb, _, hsplit⟩ := quotedP_eq_some h
  subst hs
  rw [hsplit]
  cases b with
  | nil => exact absurd rfl hb
  | cons c cs => simp; omega

theorem litP_length {p s r : Str} (h : litP p s = some r) :
    r.length + p.length = s.length := by
  rw [litP_eq_some.mp h]; simp; omega

theorem matchDeclAt_lt {s : Str} {v : (Str × Str) × Str}
    (h : matchDeclAt s = some v) : v.2.length < s.length := by
  unfold matchDeclAt at h
  simp only [Option.bind_eq_some] at h
  obtain ⟨s1, h1, s2, h2, s3, h3, xv, hx, s4, h4, s5, h5, s6, h6, s7, h7, nsv, hns, s8, h8, hfin⟩ := h
  have e1 := litP_length h1
  have e2 := litP_length h2
  have e3 := litP_length h3
  have ex := wordP_eq_some hx
  have e4 := litP_length h4
  have e5 := litP_length h5
  have e6 := litP_length h6
  have e7 := litP_length h7
  have ens := quotedP_length hns
  have e8 := litP_length h8
  have l1 := spacesP_length s1
  have l2 := spacesP_length s2
  have l3 := spacesP_length s3
  have l4 := spacesP_length s4
  have l5 := spacesP_length s5
  have l6 := spacesP_length s6
  have l7 := spacesP_length s7
  have lx := spacesP_length xv.2
  have lns := spacesP_length nsv.2
  have exlen : xv.1.length + xv.2.length = (spacesP s3).length := by
    have := congrArg List.length ex.2.1
    simpa using this
  have ex1 : 1 ≤ xv.1.length := by
    cases hxv : xv.1 with
    | nil => exact absurd hxv ex.1
    | cons a b => simp [hxv]
  obtain rfl := Option.some.inj hfin
  show s8.length < s.length
  simp only [List.length_cons, List.length_nil] at e1 e2 e3 e4 e5 e6 e7 e8
  omega

theorem matchCallAt_lt {s : Str} {v : (Str × Str) × Str}
    (h : matchCallAt s = some v) : v.2.length < s.length := by
  unfold matchCallAt at h
  split at h
  · rename_i t c s1
    split at h
    · simp only [Option.bind_eq_some] at h
      obtain ⟨s2, h2, kv, hk, s3, h3, hfin⟩ := h
      obtain rfl := Option.some.inj hfin
      show s3.length < (t :: c :: s1).length
      have e2 := litP_length h2
      have ek := quotedP_length hk
      have e3 := litP_length h3
      have l1 := spacesP_length (s1.dropWhile isAsciiAlnum)
      have l2 := spacesP_length s2
      have l3 := spacesP_length kv.2
      have ld := dropWhile_length_le isAsciiAlnum s1
      simp only [List.length_cons, List.length_nil] at e2 e3 ⊢
      omega
    · exact absurd h (by simp)
  · exact absurd h (by simp)

theorem scanDeclsF_congr : ∀ n m : Nat, ∀ s : Str, s.length ≤ n → s.length ≤ m →
    scanDeclsF n s = scanDeclsF m s := by
  intro n
  induction n with
  | zero =>
    intro m s hn _
    have hs : s = [] := List.length_eq_zero.mp (Nat.le_zero.mp hn)
    subst hs
    cases m with
    | zero => rfl
    | succ m => rfl
  | succ n ih =>
    intro m s hn hm
    cases m with
    | zero =>
      have hs : s = [] := List.length_eq_zero.mp (Nat.le_zero.mp hm)
      subst hs
      rfl
    | succ m =>
      cases hmd : matchDeclAt s with
      | some v =>
        have hlt := matchDeclAt_lt hmd
        simp only [scanDeclsF, hmd]
        rw [ih m v.2 (by omega) (by omega)]
      | none =>
        cases s with
        | nil => rfl
        | cons c rest =>
          simp only [List.length_cons] at hn hm
          simp only [scanDeclsF, hmd]
          exact ih m rest (by omega) (by omega)

theorem scanDecls_nil : scanDecls [] = [] := rfl

theorem scanDecls_some {s : Str} {v : (Str × Str) × Str}
    (h : matchDeclAt s = some v) : scanDecls s = v.1 :: scanDecls v.2 := by
  cases s with
  | nil => exact Option.noConfusion h
  | cons c rest =>
    have hlt := matchDeclAt_lt h
    simp only [List.length_cons] at hlt
    unfold scanDecls
    simp only [List.length_cons, scanDeclsF, h]
    rw [scanDeclsF_congr rest.length v.2.length v.2 (by omega) (le_refl _)]

theorem scanDecls_none {c : Char} {rest : Str}
    (h : matchDeclAt (c :: rest) = none) : scanDecls (c :: rest) = scanDecls rest := by
  unfold scanDecls
  simp only [List.length_cons, scanDeclsF, h]

theorem scanCallsF_congr : ∀ n m : Nat, ∀ (prevWord : Bool) (s : Str),
    s.length ≤ n → s.length ≤ m → scanCallsF n prevWord s = scanCallsF m prevWord s := by
  intro n
  induction n with
  | zero =>
    intro m prevWord s hn _
    have hs : s = [] := List.length_eq_zero.mp (Nat.le_zero.mp hn)
    subst hs
    cases m with
    | zero => rfl
    | succ m => rfl
  | succ n ih =>
    intro m prevWord s hn hm
    cases m with
    | zero =>
      have hs : s = [] := List.length_eq_zero.mp (Nat.le_zero.mp hm)
      subst hs
      rfl
    | succ m =>
      cases s with
      | nil => rfl
      | cons cc rest =>
        simp only [List.length_cons] at hn hm
        cases prevWord with
        | true =>
          simp only [scanCallsF, if_true]
          exact ih m (isWordChar cc) rest (by omega) (by omega)
        | false =>
          cases hmc : matchCallAt (cc :: rest) with
          | some v =>
            have hlt := matchCallAt_lt hmc
            simp only [List.length_cons] at hlt
            simp only [scanCallsF, hmc]
            rw [ih m false v.2 (by omega) (by omega)]
            simp
          | none =>
            simp only [scanCallsF, hmc]
            have := ih m (isWordChar cc) rest (by omega) (by omega)
            simp [this]

theorem scanCallsAux_nil (prevWord : Bool) : scanCallsAux prevWord [] = [] := rfl

theorem scanCallsAux_some {c : Char} {rest : Str} {v : (Str × Str) × Str}
    (h : matchCallAt (c :: rest) = some v) :
    scanCallsAux false (c :: rest) = v.1 :: scanCallsAux false v.2 := by
  have hlt := matchCallAt_lt h
  simp only [List.length_cons] at hlt
  unfold scanCallsAux
  simp only [List.length_cons, scanCallsF, h]
  rw [scanCallsF_congr rest.length v.2.length false v.2 (by omega) (le_refl _)]
  simp

theorem scanCallsAux_none {c : Char} {rest : Str}
    (h : matchCallAt (c :: rest) = none) :
    scanCallsAux false (c :: rest) = scanCallsAux (isWordChar c) rest := by
  unfold scanCallsAux
  simp only [List.length_cons, scanCallsF, h]
  simp

theorem scanCallsAux_word (c : Char) (rest : Str) :
    scanCallsAux true (c :: rest) = scanCallsAux (isWordChar c) rest := by
  unfold scanCallsAux
  simp only [List.length_cons, scanCallsF, if_true]

theorem space_not_word {c : Char} (h : isGoSpace c = true) : isWordChar c = false := by
  simp only [isGoSpace, Bool.or_eq_true, decide_eq_true_eq] at h
  rcases h with ((((h | h) | h) | h) | h) <;> subst h <;> decide

theorem space_not_alnum {c : Char} (h : isGoSpace c = true) : isAsciiAlnum c = false := by
  simp only [isGoSpace, Bool.or_eq_true, decide_eq_true_eq] at h
  rcases h with ((((h | h) | h) | h) | h) <;> subst h <;> decide

theorem space_not_quote {c : Char} (h : isGoSpace c = true) : isQuote c = false := by
  simp only [isGoSpace, Bool.or_eq_true, decide_eq_true_eq] at h
  rcases h with ((((h | h) | h) | h) | h) <;> subst h <;> decide

theorem quote_not_space {c : Char} (h : isQuote c = true) : isGoSpace c = false := by
  simp only [isQuote, Bool.or_eq_true, decide_eq_true_eq] at h
  rcases h with h | h <;> subst h <;> decide

theorem quote_not_word {c : Char} (h : isQuote c = true) : isWordChar c = false := by
  simp only [isQuote, Bool.or_eq_true, decide_eq_true_eq] at h
  rcases h with h | h <;> subst h <;> decide

theorem quote_ne_rparen {c : Char} (h : isQuote c = true) : c ≠ ')' := by
  simp only [isQuote, Bool.or_eq_true, decide_eq_true_eq] at h
  rcases h with h | h <;> subst h <;> decide

theorem word_not_space {c : Char} (h : isWordChar c = true) : isGoSpace c = false := by
  cases hs : isGoSpace c
  · rfl
  · rw [space_not_word hs] at h
    exact Bool.noConfusion h

theorem word_not_quote {c : Char} (h : isWordChar c = true) : isQuote c = false := by
  cases hs : isQuote c
  · rfl
  · rw [quote_not_word hs] at h
    exact Bool.noConfusion h

theorem alnum_word {c : Char} (h : isAsciiAlnum c = true) : isWordChar c = true := by
  simp only [isAsciiAlnum, isAsciiLetter, isWordChar, Bool.or_eq_true] at h ⊢
  tauto

theorem alnum_not_space {c : Char} (h : isAsciiAlnum c = true) : isGoSpace c = false :=
  word_not_space (alnum_word h)

theorem letter_word {c : Char} (h : isAsciiLetter c = true) : isWordChar c = true := by
  simp only [isAsciiLetter, isWordChar, Bool.or_eq_true] at h ⊢
  tauto

theorem takeWhile_all {p : Char → Bool} : ∀ {a : Str}, (∀ d ∈ a, p d = true) →
    a.takeWhile p = a := by
  intro a
  induction a with
  | nil => intro _; rfl
  | cons d ds ih =>
    intro ha
    rw [List.takeWhile_cons_of_pos (ha d (List.mem_cons_self d ds))]
    rw [ih fun e he => ha e (List.mem_cons_of_mem d he)]

theorem dropWhile_all {p : Char → Bool} : ∀ {a : Str}, (∀ d ∈ a, p d = true) →
    a.dropWhile p = [] := by
  intro a
  induction a with
  | nil => intro _; rfl
  | cons d ds ih =>
    intro ha
    rw [List.dropWhile_cons_of_pos (ha d (List.mem_cons_self d ds))]
    exact ih fun e he => ha e (List.mem_cons_of_mem d he)

theorem takeWhile_append_all {p : Char → Bool} {a : Str} (ha : ∀ d ∈ a, p d = true)
    (l : Str) : (a ++ l).takeWhile p = a ++ l.takeWhile p := by
  induction a with
  | nil => simp
  | cons d ds ih =>
    rw [List.cons_append, List.takeWhile_cons_of_pos (ha d (List.mem_cons_self d ds))]
    rw [ih fun e he => ha e (List.mem_cons_of_mem d he)]
    rfl

theorem dropWhile_append_all {p : Char → Bool} {a : Str} (ha : ∀ d ∈ a, p d = true)
    (l : Str) : (a ++ l).dropWhile p = l.dropWhile p := by
  induction a with
  | nil => simp
  | cons d ds ih =>
    rw [List.cons_append, List.dropWhile_cons_of_pos (ha d (List.mem_cons_self d ds))]
    exact ih fun e he => ha e (List.mem_cons_of_mem d he)

theorem takeWhile_append_stop {p : Char → Bool} {c : Char} (hc : p c = false)
    (a r : Str) : (a ++ c :: r).takeWhile p = a.takeWhile p := by
  induction a with
  | nil => simp [List.takeWhile_cons, hc]
  | cons d ds ih =>
    by_cases hd : p d
    · rw [List.cons_append, List.takeWhile_cons_of_pos hd, ih,
        List.takeWhile_cons_of_pos hd]
    · rw [List.cons_append, List.takeWhile_cons_of_neg hd, List.takeWhile_cons_of_neg hd]

theorem dropWhile_append_stop {p : Char → Bool} {c : Char} (hc : p c = false)
    (a r : Str) : (a ++ c :: r).dropWhile p = a.dropWhile p ++ c :: r := by
  induction a with
  | nil => simp [List.dropWhile_cons, hc]
  | cons d ds ih =>
    by_cases hd : p d
    · rw [List.cons_append, List.dropWhile_cons_of_pos hd, ih,
        List.dropWhile_cons_of_pos hd]
    · rw [List.cons_append, List.dropWhile_cons_of_neg hd, List.dropWhile_cons_of_neg hd,
        List.cons_append]

theorem spacesP_run {w : Str} (hw : ∀ d ∈ w, isGoSpace d = true) {c : Char}
    (hc : isGoSpace c = false) (r : Str) : spacesP (w ++ c :: r) = c :: r := by
  unfold spacesP
  rw [dropWhile_append_stop hc, dropWhile_all hw]
  rfl

theorem spacesP_run_word {w : Str} (hw : ∀ d ∈ w, isGoSpace d = true) {x : Str}
    (hx : x ≠ []) (hxw : ∀ d ∈ x, isWordChar d = true) (R : Str) :
    spacesP (w ++ (x ++ R)) = x ++ R := by
  cases x with
  | nil => exact absurd rfl hx
  | cons c cs =>
    rw [List.cons_append]
    exact spacesP_run hw (word_not_space (hxw c (List.mem_cons_self c cs))) (cs ++ R)

theorem takeWhile_nil_append {p : Char → Bool} {w : Str} (hw : ∀ d ∈ w, p d = false)
    {c : Char} (hc : p c = false) (r : Str) : (w ++ c :: r).takeWhile p = [] := by
  cases w with
  | nil => simp [List.takeWhile_cons, hc]
  | cons d ds => simp [List.takeWhile_cons, hw d (List.mem_cons_self d ds)]

theorem dropWhile_nil_append {p : Char → Bool} {w : Str} (hw : ∀ d ∈ w, p d = false)
    {c : Char} (hc : p c = false) (r : Str) : (w ++ c :: r).dropWhile p = w ++ c :: r := by
  cases w with
  | nil => simp [List.dropWhile_cons, hc]
  | cons d ds => simp [List.dropWhile_cons, hw d (List.mem_cons_self d ds)]

theorem litP_single (c : Char) (r : Str) : litP [c] (c :: r) = some r := by
  simp [litP]

theorem wordP_run {x : Str} (hx : x ≠ []) (hxw : ∀ d ∈ x, isWordChar d = true)
    {w : Str} (hw : ∀ d ∈ w, isGoSpace d = true) {c : Char} (hc : isWordChar c = false)
    (r : Str) : wordP (x ++ (w ++ c :: r)) = some (x, w ++ c :: r) := by
  have hwf : ∀ d ∈ w, isWordChar d = false := fun d hd => space_not_word (hw d hd)
  unfold wordP
  rw [takeWhile_append_all hxw, takeWhile_nil_append hwf hc, List.append_nil,
    dropWhile_append_all hxw, dropWhile_nil_append hwf hc]
  cases x with
  | nil => exact absurd rfl hx
  | cons a b => rfl

theorem quotedP_run {q1 : Char} (hq1 : isQuote q1 = true) {ns : Str} (hns : ns ≠ [])
    (hnsq : ∀ c ∈ ns, isQuote c = false) {q2 : Char} (hq2 : isQuote q2 = true)
    (R : Str) : quotedP (q1 :: (ns ++ q2 :: R)) = some (ns, R) := by
  have hnst : ∀ c ∈ ns, (fun c => !(isQuote c)) c = true := by
    intro c hc
    simp [hnsq c hc]
  have hq2f : (fun c => !(isQuote c)) q2 = false := by simp [hq2]
  have htake : (ns ++ q2 :: R).takeWhile (fun c => !(isQuote c)) = ns := by
    rw [takeWhile_append_stop hq2f, takeWhile_all hnst]
  have hdrop : (ns ++ q2 :: R).dropWhile (fun c => !(isQuote c)) = q2 :: R := by
    rw [dropWhile_append_stop hq2f, dropWhile_all hnst]
    rfl
  simp only [quotedP, hq1, if_true, htake, hdrop]
  cases ns with
  | nil => exact absurd rfl hns
  | cons a b => rfl

theorem litP_const (X : Str) :
    litP ['c', 'o', 'n', 's', 't'] ('c' :: 'o' :: 'n' :: 's' :: 't' :: X) = some X := by
  simp [litP]

theorem litP_tc (X : Str) : litP ['t', ':'] ('t' :: ':' :: X) = some X := by
  simp [litP]

theorem litP_useT (X : Str) :
    litP ['u', 's', 'e', 'T', 'r', 'a', 'n', 's', 'l', 'a', 't', 'i', 'o', 'n']
      ('u' :: 's' :: 'e' :: 'T' :: 'r' :: 'a' :: 'n' :: 's' :: 'l' :: 'a' :: 't' :: 'i' :: 'o' :: 'n' :: X) = some X := by
  simp [litP]

theorem matchDeclAt_declText (d : DeclParts) (h : d.WF) (q : Str) :
    matchDeclAt (d.text ++ q) = some ((d.tVar, d.ns), q) := by
  obtain ⟨h1, h2, h3, h4, h5, h6, h7, h8, h9, hq1, hq2, hx0, hxw, hns0, hnsq⟩ := h
  unfold matchDeclAt DeclParts.text
  simp only [List.append_assoc, List.cons_append, List.singleton_append, List.nil_append,
    litP_const, litP_single, litP_tc, litP_useT,
    spacesP_run h1 (show isGoSpace lbrace = false by decide),
    spacesP_run h2 (show isGoSpace 't' = false by decide),
    spacesP_run_word h3 hx0 hxw,
    wordP_run hx0 hxw h4 (show isWordChar rbrace = false by decide),
    spacesP_run h4 (show isGoSpace rbrace = false by decide),
    spacesP_run h5 (show isGoSpace '=' = false by decide),
    spacesP_run h6 (show isGoSpace 'u' = false by decide),
    spacesP_run h7 (show isGoSpace '(' = false by decide),
    spacesP_run h8 (quote_not_space hq1),
    quotedP_run hq1 hns0 hnsq hq2,
    spacesP_run h9 (show isGoSpace ')' = false by decide),
    Option.some_bind]

theorem matchCallAt_callText (p : CallParts) (h : p.WF) (q : Str) :
    matchCallAt (p.text ++ q) = some ((p.tVar, p.key), q) := by
  obtain ⟨h1, h2, h3, hq1, hq2, hc0, hr0, hk0, hkq⟩ := h
  have hr0f : ∀ c ∈ p.rest0, isAsciiAlnum c = true := hr0
  have hw1f : ∀ c ∈ p.w1, isAsciiAlnum c = false := fun c hc => space_not_alnum (h1 c hc)
  have hlp : isAsciiAlnum '(' = false := by decide
  unfold matchCallAt CallParts.text CallParts.tVar
  simp only [List.append_assoc, List.cons_append, List.singleton_append, List.nil_append]
  rw [if_pos (by simp [hc0])]
  rw [takeWhile_append_all hr0f, takeWhile_nil_append hw1f hlp, List.append_nil,
    dropWhile_append_all hr0f, dropWhile_nil_append hw1f hlp]
  simp only [litP_single,
    spacesP_run h1 (show isGoSpace '(' = false by decide),
    spacesP_run h2 (quote_not_space hq1),
    quotedP_run hq1 hk0 hkq hq2,
    spacesP_run h3 (show isGoSpace ')' = false by decide),
    Option.some_bind]

theorem scanCalls_callText (p : CallParts) (h : p.WF) :
    scanCalls p.text = [(p.tVar, p.key)] := by
  have hm : matchCallAt (p.text ++ []) = some ((p.tVar, p.key), []) :=
    matchCallAt_callText p h []
  rw [List.append_nil] at hm
  have htext : p.text = 't' :: p.c0 :: (p.rest0 ++ p.w1 ++
      '(' :: (p.w2 ++ p.q1 :: (p.key ++ p.q2 :: (p.w3 ++ [(')' : Char)])))) := rfl
  rw [htext] at hm ⊢
  unfold scanCalls
  rw [scanCallsAux_some hm]
  rfl

theorem matchCallAt_shape {s : Str} {v : (Str × Str) × Str}
    (h : matchCallAt s = some v) :
    ∃ c0 rest0, v.1.1 = 't' :: c0 :: rest0 ∧ isAsciiLetter c0 = true ∧
      (∀ c ∈ rest0, isAsciiAlnum c = true) ∧ v.1.2 ≠ [] ∧
      (∀ c ∈ v.1.2, isQuote c = false) := by
  unfold matchCallAt at h
  split at h
  · rename_i t c s1
    split at h
    · rename_i hguard
      simp only [Bool.and_eq_true, decide_eq_true_eq] at hguard
      simp only [Option.bind_eq_some] at h
      obtain ⟨s2, h2, kv, hk, s3, h3, hfin⟩ := h
      obtain rfl := Option.some.inj hfin
      obtain ⟨qa, qb, sx, hcons, hq, hbne, hbtake, hsplit⟩ := quotedP_eq_some hk
      refine ⟨c, s1.takeWhile isAsciiAlnum, rfl, hguard.2, ?_, hbne, ?_⟩
      · intro d hd
        exact List.mem_takeWhile_imp hd
      · intro d hd
        rw [hbtake] at hd
        have := List.mem_takeWhile_imp hd
        simpa using this
    · exact absurd h (by simp)
  · exact absurd h (by simp)

theorem scanCallsAux_mem : ∀ n : Nat, ∀ s : Str, s.length ≤ n →
    ∀ (prev : Bool) (ak : Str × Str), ak ∈ scanCallsAux prev s →
    ∃ c0 rest0, ak.1 = 't' :: c0 :: rest0 ∧ isAsciiLetter c0 = true ∧
      (∀ c ∈ rest0, isAsciiAlnum c = true) ∧ ak.2 ≠ [] ∧
      (∀ c ∈ ak.2, isQuote c = false) := by
  intro n
  induction n with
  | zero =>
    intro s hn prev ak hm
    have hs : s = [] := List.length_eq_zero.mp (Nat.le_zero.mp hn)
    subst hs
    rw [scanCallsAux_nil] at hm
    exact absurd hm (List.not_mem_nil ak)
  | succ n ih =>
    intro s hn prev ak hm
    cases s with
    | nil =>
      rw [scanCallsAux_nil] at hm
      exact absurd hm (List.not_mem_nil ak)
    | cons cc rest =>
      simp only [List.length_cons] at hn
      cases prev with
      | true =>
        rw [scanCallsAux_word] at hm
        exact ih rest (by omega) (isWordChar cc) ak hm
      | false =>
        cases hmc : matchCallAt (cc :: rest) with
        | some v =>
          rw [scanCallsAux_some hmc] at hm
          rcases List.mem_cons.mp hm with hm | hm
          · subst hm
            exact matchCallAt_shape hmc
          · have hlt := matchCallAt_lt hmc
            simp only [List.length_cons] at hlt
            exact ih v.2 (by omega) false ak hm
        | none =>
          rw [scanCallsAux_none hmc] at hm
          exact ih rest (by omega) (isWordChar cc) ak hm

theorem scanCalls_mem {s : Str} {ak : Str × Str} (hm : ak ∈ scanCalls s) :
    ∃ c0 rest0, ak.1 = 't' :: c0 :: rest0 ∧ isAsciiLetter c0 = true ∧
      (∀ c ∈ rest0, isAsciiAlnum c = true) ∧ ak.2 ≠ [] ∧
      (∀ c ∈ ak.2, isQuote c = false) :=
  scanCallsAux_mem s.length s (le_refl _) false ak hm

theorem matchDeclAt_shape {s : Str} {v : (Str × Str) × Str}
    (h : matchDeclAt s = some v) :
    v.1.1 ≠ [] ∧ (∀ c ∈ v.1.1, isWordChar c = true) ∧ v.1.2 ≠ [] ∧
      (∀ c ∈ v.1.2, isQuote c = false) := by
  unfold matchDeclAt at h
  simp only [Option.bind_eq_some] at h
  obtain ⟨s1, h1, s2, h2, s3, h3, xv, hx, s4, h4, s5, h5, s6, h6, s7, h7, nsv, hns, s8, h8, hfin⟩ := h
  obtain rfl := Option.some.inj hfin
  obtain ⟨hxne, hxsplit, hxtake, hxdrop⟩ := wordP_eq_some (show wordP (spacesP s3) = some (xv.1, xv.2) from hx)
  obtain ⟨q1, q2, t1, hts, htq, hbne, hbtake, htsplit⟩ := quotedP_eq_some (show quotedP (spacesP s7) = some (nsv.1, nsv.2) from hns)
  refine ⟨hxne, ?_, hbne, ?_⟩
  · intro d hd
    rw [hxtake] at hd
    exact List.mem_takeWhile_imp hd
  · intro d hd
    rw [hbtake] at hd
    have := List.mem_takeWhile_imp hd
    simpa using this

theorem scanDecls_mem : ∀ n : Nat, ∀ s : Str, s.length ≤ n →
    ∀ ans : Str × Str, ans ∈ scanDecls s →
    ans.1 ≠ [] ∧ (∀ c ∈ ans.1, isWordChar c = true) ∧ ans.2 ≠ [] ∧
      (∀ c ∈ ans.2, isQuote c = false) := by
  intro n
  induction n with
  | zero =>
    intro s hn ans hm
    have hs : s = [] := List.length_eq_zero.mp (Nat.le_zero.mp hn)
    subst hs
    rw [scanDecls_nil] at hm
    exact absurd hm (List.not_mem_nil ans)
  | succ n ih =>
    intro s hn ans hm
    cases hmd : matchDeclAt s with
    | some v =>
      rw [scanDecls_some hmd] at hm
      rcases List.mem_cons.mp hm with hm | hm
      · subst hm
        exact matchDeclAt_shape hmd
      · have hlt := matchDeclAt_lt hmd
        exact ih v.2 (by omega) ans hm
    | none =>
      cases s with
      | nil =>
        rw [scanDecls_nil] at hm
        exact absurd hm (List.not_mem_nil ans)
      | cons c rest =>
        simp only [List.length_cons] at hn
        rw [scanDecls_none hmd] at hm
        exact ih rest (by omega) ans hm

theorem orO_none {α : Type} (b : Option α) : orO none b = b := rfl

theorem orO_some {α : Type} (v : α) (b : Option α) : orO (some v) b = some v := rfl

theorem goLookup_insert_self {α β : Type} [DecidableEq α] (m : List (α × β)) (k : α) (v : β) :
    goLookup (goInsert m k v) k = some v := by
  induction m with
  | nil => simp [goInsert, goLookup]
  | cons kv m ih =>
    by_cases h : k = kv.1
    · simp [goInsert, h, goLookup]
    · simp only [goInsert]
      rw [if_neg (by simpa using h)]
      simp [goLookup, h, ih]

theorem goLookup_insert_ne {α β : Type} [DecidableEq α] (m : List (α × β)) (k k2 : α) (v : β)
    (h : k2 ≠ k) : goLookup (goInsert m k v) k2 = goLookup m k2 := by
  induction m with
  | nil => simp [goInsert, goLookup, h]
  | cons kv m ih =>
    by_cases hk : k = kv.1
    · subst hk
      simp only [goInsert, if_pos rfl]
      simp [goLookup, h]
    · simp only [goInsert]
      rw [if_neg (by simpa using hk)]
      by_cases h2 : k2 = kv.1
      · simp [goLookup, h2]
      · simp [goLookup, h2, ih]

theorem lastVal_gen (k : Str) : ∀ (l : List (Str × Str)) (acc : Option Str),
    l.foldl (fun acc kv => if kv.1 = k then some kv.2 else acc) acc =
      orO (lastVal l k) acc := by
  intro l
  induction l with
  | nil => intro acc; rfl
  | cons a l ih =>
    intro acc
    show l.foldl _ (if a.1 = k then some a.2 else acc) = orO (lastVal (a :: l) k) acc
    have hl : lastVal (a :: l) k =
        orO (lastVal l k) (if a.1 = k then some a.2 else none) := by
      show l.foldl _ (if a.1 = k then some a.2 else none) = _
      exact ih _
    rw [ih, hl]
    cases hv : lastVal l k with
    | some v => rfl
    | none =>
      by_cases ha : a.1 = k
      · simp [ha, orO]
      · simp [ha, orO]

theorem foldl_insert_lookup (k : Str) : ∀ (l : List (Str × Str)) (m : GoMap),
    goLookup (l.foldl (fun m2 kv => goInsert m2 kv.1 kv.2) m) k =
      orO (lastVal l k) (goLookup m k) := by
  intro l
  induction l with
  | nil => intro m; rfl
  | cons a l ih =>
    intro m
    show goLookup (l.foldl _ (goInsert m a.1 a.2)) k = orO (lastVal (a :: l) k) _
    have hl : lastVal (a :: l) k =
        orO (lastVal l k) (if a.1 = k then some a.2 else none) := by
      show l.foldl _ (if a.1 = k then some a.2 else none) = _
      exact lastVal_gen k l _
    rw [ih, hl]
    cases hv : lastVal l k with
    | some v => rfl
    | none =>
      by_cases ha : a.1 = k
      · subst ha
        simp [orO, goLookup_insert_self]
      · rw [goLookup_insert_ne m a.1 k a.2 (fun hk => ha hk.symm)]
        simp [ha, orO]

theorem buildFileMap_lookup (decls : List (Str × Str)) (k : Str) :
    goLookup (buildFileMap decls) k = lastVal decls k := by
  unfold buildFileMap
  rw [foldl_insert_lookup]
  cases lastVal decls k <;> rfl

theorem mergeGlobal_lookup (g : GoMap) (fm : GoMap) (k : Str) :
    goLookup (mergeGlobal g fm) k = orO (lastVal fm k) (goLookup g k) := by
  unfold mergeGlobal
  rw [foldl_insert_lookup]

theorem lastVal_none {l : List (Str × Str)} {k : Str}
    (h : ∀ kv ∈ l, kv.1 ≠ k) : lastVal l k = none := by
  induction l with
  | nil => rfl
  | cons a l ih =>
    show l.foldl _ (if a.1 = k then some a.2 else none) = none
    rw [if_neg (h a (List.mem_cons_self a l))]
    exact ih fun kv hkv => h kv (List.mem_cons_of_mem a hkv)

theorem lastVal_append (l1 l2 : List (Str × Str)) (k : Str) :
    lastVal (l1 ++ l2) k = orO (lastVal l2 k) (lastVal l1 k) := by
  unfold lastVal
  rw [List.foldl_append]
  exact lastVal_gen k l2 _

theorem lastVal_cons (a : Str × Str) (l : List (Str × Str)) (k : Str) :
    lastVal (a :: l) k = orO (lastVal l k) (if a.1 = k then some a.2 else none) := by
  show l.foldl _ (if a.1 = k then some a.2 else none) = _
  exact lastVal_gen k l _

/-- Keys present after a goInsert. -/
theorem goInsert_mem_keys {α β : Type} [DecidableEq α] :
    ∀ (m : List (α × β)) (k : α) (v : β) (k2 : α),
    (k2 ∈ (goInsert m k v).map Prod.fst) ↔ (k2 = k ∨ k2 ∈ m.map Prod.fst) := by
  intro m
  induction m with
  | nil =>
    intro k v k2
    simp [goInsert]
  | cons a m ih =>
    intro k v k2
    by_cases hk : k = a.1
    · simp only [goInsert, if_pos hk]
      simp only [List.map_cons, List.mem_cons]
      rw [← hk]
      tauto
    · simp only [goInsert, if_neg hk]
      simp only [List.map_cons, List.mem_cons, ih]
      tauto

/-- goInsert keeps the keys of a map without duplicates. -/
theorem goInsert_nodup {α β : Type} [DecidableEq α] :
    ∀ (m : List (α × β)), (m.map Prod.fst).Nodup → ∀ (k : α) (v : β),
    ((goInsert m k v).map Prod.fst).Nodup := by
  intro m
  induction m with
  | nil =>
    intro _ k v
    simp [goInsert]
  | cons a m ih =>
    intro hnd k v
    simp only [List.map_cons, List.nodup_cons] at hnd
    obtain ⟨ha, hm⟩ := hnd
    by_cases hk : k = a.1
    · simp only [goInsert, if_pos hk, List.map_cons, List.nodup_cons]
      exact ⟨by rw [hk]; exact ha, hm⟩
    · simp only [goInsert, if_neg hk, List.map_cons, List.nodup_cons]
      refine ⟨?_, ih hm k v⟩
      intro hmem
      rcases (goInsert_mem_keys m k v a.1).mp hmem with h | h
      · exact hk h.symm
      · exact ha h

/-- On a map whose keys are without duplicates, the last binding of a key
and its lookup agree.  This is what makes the model independent of the
order Go iterates a map's entries. -/
theorem nodup_lastVal_eq_lookup :
    ∀ (m : GoMap), (m.map Prod.fst).Nodup → ∀ k, lastVal m k = goLookup m k := by
  intro m
  induction m with
  | nil => intro _ k; rfl
  | cons a m ih =>
    intro hnd k
    simp only [List.map_cons, List.nodup_cons] at hnd
    obtain ⟨ha, hm⟩ := hnd
    rw [lastVal_cons]
    show _ = goLookup (a :: m) k
    by_cases hk : k = a.1
    · have hnone : lastVal m k = none := by
        apply lastVal_none
        intro kv hkv hkk
        exact ha (List.mem_map.mpr ⟨kv, hkv, by rw [hkk, hk]⟩)
      rw [hnone, orO_none, if_pos hk.symm]
      simp [goLookup, if_pos hk]
    · have h2 : ¬ (a.1 = k) := fun h => hk h.symm
      rw [if_neg h2]
      have : orO (lastVal m k) none = lastVal m k := by
        cases lastVal m k <;> rfl
      rw [this, ih hm k]
      simp [goLookup, hk]

/-- The keys of a built per-file map are without duplicates. -/
theorem buildFileMap_nodup (decls : List (Str × Str)) :
    ((buildFileMap decls).map Prod.fst).Nodup := by
  unfold buildFileMap
  induction decls using List.reverseRecOn with
  | nil => simp
  | append_singleton l a ih =>
    rw [List.foldl_append]
    exact goInsert_nodup _ ih a.1 a.2

theorem goLookup_mem {α β : Type} [DecidableEq α] :
    ∀ (m : List (α × β)) (k : α) (v : β), goLookup m k = some v → (k, v) ∈ m := by
  intro m
  induction m with
  | nil => intro k v h; exact absurd h (by simp [goLookup])
  | cons a m ih =>
    intro k v h
    unfold goLookup at h
    by_cases hk : k = a.1
    · rw [if_pos hk] at h
      obtain rfl := Option.some.inj h
      subst hk
      have he : (a.1, a.2) = a := rfl
      rw [he]
      exact List.mem_cons_self a m
    · rw [if_neg hk] at h
      exact List.mem_cons_of_mem a (ih k v h)

theorem goInsert_mem {α β : Type} [DecidableEq α] :
    ∀ (m : List (α × β)) (k : α) (v : β) (kv : α × β),
    kv ∈ goInsert m k v → kv = (k, v) ∨ kv ∈ m := by
  intro m
  induction m with
  | nil =>
    intro k v kv h
    simp [goInsert] at h
    exact Or.inl h
  | cons a m ih =>
    intro k v kv h
    by_cases hk : k = a.1
    · rw [goInsert, if_pos hk] at h
      rcases List.mem_cons.mp h with h | h
      · exact Or.inl h
      · exact Or.inr (List.mem_cons_of_mem a h)
    · rw [goInsert, if_neg hk] at h
      rcases List.mem_cons.mp h with h | h
      · exact Or.inr (h ▸ List.mem_cons_self a m)
      · rcases ih k v kv h with h | h
        · exact Or.inl h
        · exact Or.inr (List.mem_cons_of_mem a h)

theorem foldl_insert_mem {α β : Type} [DecidableEq α] :
    ∀ (l : List (α × β)) (m : List (α × β)) (kv : α × β),
    kv ∈ l.foldl (fun m2 p => goInsert m2 p.1 p.2) m → kv ∈ m ∨ kv ∈ l := by
  intro l
  induction l with
  | nil => intro m kv h; exact Or.inl h
  | cons a l ih =>
    intro m kv h
    rcases ih (goInsert m a.1 a.2) kv h with h | h
    · rcases goInsert_mem m a.1 a.2 kv h with h | h
      · right
        rw [h]
        exact List.mem_cons_self a l
      · exact Or.inl h
    · exact Or.inr (List.mem_cons_of_mem a h)

/-- Every binding of the global alias map is a declaration match of one of
the corpus files. -/
theorem buildGlobalMap_mem (files : List (Str × Str)) (kv : Str × Str)
    (h : kv ∈ buildGlobalMap files) :
    ∃ f ∈ files, kv ∈ scanDecls f.2 := by
  unfold buildGlobalMap at h
  induction files using List.reverseRecOn with
  | nil => exact absurd h (by simp)
  | append_singleton fs f ih =>
    rw [List.foldl_append, List.foldl_cons, List.foldl_nil] at h
    unfold mergeGlobal at h
    rcases foldl_insert_mem _ _ kv h with h | h
    · obtain ⟨g, hg, hkv⟩ := ih h
      exact ⟨g, List.mem_append_left [f] hg, hkv⟩
    · unfold extractUseTranslationDeclarations buildFileMap at h
      rcases foldl_insert_mem _ _ kv h with h | h
      · exact absurd h (by simp)
      · exact ⟨f, List.mem_append_right fs (List.mem_cons_self f []), h⟩

theorem toNat_ofNat_small {n : Nat} (h : n < 55296) : (Char.ofNat n).toNat = n := by
  unfold Char.ofNat
  split
  · rfl
  · rename_i hv
    exact absurd (Or.inl (by omega)) hv

theorem lowerChar_not_quote {c : Char} (h : isAsciiAlnum c = true) :
    isQuote (lowerChar c) = false := by
  unfold lowerChar
  by_cases hAZ : 'A' ≤ c ∧ c ≤ 'Z'
  · rw [if_pos hAZ]
    have h65 : (65 : Nat) ≤ c.toNat := hAZ.1
    have h90 : c.toNat ≤ 90 := hAZ.2
    have htn : (Char.ofNat (c.toNat + 32)).toNat = c.toNat + 32 :=
      toNat_ofNat_small (by omega)
    simp only [isQuote, Bool.or_eq_false_iff, decide_eq_false_iff_not]
    constructor
    · intro heq
      have := congrArg Char.toNat heq
      rw [htn] at this
      have hs : squote.toNat = 39 := rfl
      omega
    · intro heq
      have := congrArg Char.toNat heq
      rw [htn] at this
      have hs : dquote.toNat = 34 := rfl
      omega
  · rw [if_neg hAZ]
    exact word_not_quote (alnum_word h)

theorem letter_alnum {c : Char} (h : isAsciiLetter c = true) : isAsciiAlnum c = true := by
  simp [isAsciiAlnum, h]

/-- Every extracted entry is a call match of one corpus file, with its
namespace resolved against the global map. -/
theorem extractTranslationKeys_mem {files : List (Str × Str)} {e : TranslationKey}
    (h : e ∈ extractTranslationKeys files) :
    ∃ f ∈ files, ∃ ak ∈ scanCalls f.2,
      e = { Key := ak.2, Namespace := resolveNamespace (buildGlobalMap files) ak.1,
            File := f.1 } := by
  unfold extractTranslationKeys at h
  rw [List.mem_flatten] at h
  obtain ⟨l, hl, he⟩ := h
  rw [List.mem_map] at hl
  obtain ⟨f, hf, hfl⟩ := hl
  rw [← hfl] at he
  unfold parseFileWithMapping at he
  rw [List.mem_map] at he
  obtain ⟨ak, hak, hake⟩ := he
  exact ⟨f, hf, ak, hak, hake.symm⟩

theorem resolveNamespace_shape_props (files : List (Str × Str)) {tv : Str}
    {c : Char} {rest : Str} (htv : tv = 't' :: c :: rest)
    (hc : isAsciiLetter c = true) (hrest : ∀ d ∈ rest, isAsciiAlnum d = true) :
    resolveNamespace (buildGlobalMap files) tv ≠ [] ∧
      (∀ d ∈ resolveNamespace (buildGlobalMap files) tv, isQuote d = false) := by
  unfold resolveNamespace
  cases hlook : goLookup (buildGlobalMap files) tv with
  | some ns =>
    have hmem := goLookup_mem _ tv ns hlook
    obtain ⟨f, hf, hdecl⟩ := buildGlobalMap_mem files (tv, ns) hmem
    have hprops := scanDecls_mem f.2.length f.2 (le_refl _) (tv, ns) hdecl
    exact ⟨hprops.2.2.1, hprops.2.2.2⟩
  | none =>
    subst htv
    rw [if_pos (by simp [hasPrefixT, List.length_cons])]
    constructor
    · simp
    · intro d hd
      simp only [List.drop_succ_cons, List.drop_zero, List.mem_map] at hd
      obtain ⟨a, ha, had⟩ := hd
      rw [← had]
      rcases List.mem_cons.mp ha with ha | ha
      · exact lowerChar_not_quote (ha ▸ letter_alnum hc)
      · exact lowerChar_not_quote (hrest a ha)

/-- C1: for every matched call-site alias the Key Resolver uses the global
map's namespace when the alias is bound there; otherwise it strips the
leading t and lowercases the remainder; the alias consisting of the single
letter t alone resolves to the literal common; and the result depends only
on the alias spelling and the lookup function of the global map. -/
theorem resolveNamespace_resolution (m : GoMap) (tv : Str) :
    (∀ ns, goLookup m tv = some ns → resolveNamespace m tv = ns) ∧
    (goLookup m tv = none → ∀ c rest, tv = 't' :: c :: rest →
      resolveNamespace m tv = (c :: rest).map lowerChar) ∧
    (goLookup m tv = none → tv = ['t'] → resolveNamespace m tv = ("common").data) ∧
    (∀ m2 : GoMap, (∀ a, goLookup m a = goLookup m2 a) →
      resolveNamespace m tv = resolveNamespace m2 tv) := by
  refine ⟨?_, ?_, ?_, ?_⟩
  · intro ns h
    unfold resolveNamespace
    rw [h]
  · intro h c rest htv
    unfold resolveNamespace
    rw [h]
    subst htv
    rw [if_pos (by simp [hasPrefixT, List.length_cons])]
    rfl
  · intro h htv
    unfold resolveNamespace
    rw [h]
    subst htv
    rw [if_neg (by simp [hasPrefixT])]
  · intro m2 hext
    unfold resolveNamespace
    rw [hext tv]

theorem resolveNamespace_resolution_witness :
    resolveNamespace [((("tUser").data), ("user").data)] (("tUser").data) = ("user").data ∧
    resolveNamespace [] (("tAgent").data) = ("agent").data ∧
    resolveNamespace [] ['t'] = ("common").data := by
  refine ⟨?_, ?_, ?_⟩
  · exact (resolveNamespace_resolution [((("tUser").data), ("user").data)]
      (("tUser").data)).1 (("user").data) (by decide)
  · exact ((resolveNamespace_resolution [] (("tAgent").data)).2.1 (by decide)
      'A' (("gent").data) (by decide)).trans (by decide)
  · exact (resolveNamespace_resolution [] ['t']).2.2.1 (by decide) rfl

/-- C9: every alias the call scanner matches has length at least two with an
ASCII letter as its second character; for such aliases the map-miss
resolution always takes the strip-and-lowercase branch; and the bare call
t(key) produces no match at all, so the literal-common fallback branch is
unreachable from matched aliases. -/
theorem matched_alias_shape :
    (∀ content ak, ak ∈ scanCalls content → 2 ≤ ak.1.length ∧
      ∃ c rest, ak.1 = 't' :: c :: rest ∧ isAsciiLetter c = true) ∧
    (∀ content ak, ak ∈ scanCalls content → ∀ m : GoMap, goLookup m ak.1 = none →
      resolveNamespace m ak.1 = (ak.1.drop 1).map lowerChar) ∧
    scanCalls ('t' :: '(' :: squote :: ("key").data ++ [squote, ')']) = [] := by
  refine ⟨?_, ?_, by decide⟩
  · intro content ak hm
    obtain ⟨c, rest, hshape, hc, _, _, _⟩ := scanCalls_mem hm
    refine ⟨by rw [hshape]; simp, c, rest, hshape, hc⟩
  · intro content ak hm m hlook
    obtain ⟨c, rest, hshape, hc, _, _, _⟩ := scanCalls_mem hm
    unfold resolveNamespace
    rw [hlook, hshape]
    rw [if_pos (by simp [hasPrefixT, List.length_cons])]

theorem matched_alias_shape_witness :
    2 ≤ (("tA").data : Str).length ∧
    resolveNamespace [] (("tA").data) = (((("tA").data : Str).drop 1).map lowerChar) := by
  have hmem : ((("tA").data : Str), (("k").data : Str)) ∈
      scanCalls (("tA(").data ++ squote :: ("k").data ++ [squote, ')']) := by decide
  exact ⟨(matched_alias_shape.1 _ _ hmem).1,
    matched_alias_shape.2.1 _ _ hmem [] (by decide)⟩

/-- C10: the opening and closing quotes of the string literal need not
agree, in the declaration pattern as in the call pattern; and every
extracted key and namespace is nonempty and contains no quote character,
both at the scanner level and for every entry of the full extraction
pipeline. -/
theorem quote_flexibility_and_nonempty :
    scanDecls (("const ").data ++ lbrace :: (" t: x ").data ++ rbrace ::
        (" = useTranslation(").data ++ squote :: ("common").data ++ [dquote, ')']) =
      [((("x").data), ("common").data)] ∧
    scanCalls (("tA(").data ++ squote :: ("k").data ++ [dquote, ')']) =
      [((("tA").data), ("k").data)] ∧
    (∀ content ans, ans ∈ scanDecls content →
      ans.1 ≠ [] ∧ ans.2 ≠ [] ∧ ∀ c ∈ ans.2, isQuote c = false) ∧
    (∀ content ak, ak ∈ scanCalls content →
      ak.2 ≠ [] ∧ ∀ c ∈ ak.2, isQuote c = false) ∧
    (∀ files e, e ∈ extractTranslationKeys files →
      e.Key ≠ [] ∧ (∀ c ∈ e.Key, isQuote c = false) ∧
      e.Namespace ≠ [] ∧ (∀ c ∈ e.Namespace, isQuote c = false)) := by
  refine ⟨by decide, by decide, ?_, ?_, ?_⟩
  · intro content ans hm
    have h := scanDecls_mem content.length content (le_refl _) ans hm
    exact ⟨h.1, h.2.2.1, h.2.2.2⟩
  · intro content ak hm
    obtain ⟨c, rest, _, _, _, hk, hkq⟩ := scanCalls_mem hm
    exact ⟨hk, hkq⟩
  · intro files e he
    obtain ⟨f, hf, ak, hak, hee⟩ := extractTranslationKeys_mem he
    obtain ⟨c, rest, hshape, hc, hrest, hk, hkq⟩ := scanCalls_mem hak
    have hns := resolveNamespace_shape_props files hshape hc hrest
    subst hee
    exact ⟨hk, hkq, hns.1, hns.2⟩

theorem quote_flexibility_and_nonempty_witness :
    ((("common").data : Str) ≠ [] ∧ ∀ c ∈ (("common").data : Str), isQuote c = false) := by
  have hmem : (((("x").data : Str)), (("common").data : Str)) ∈
      scanDecls (("const ").data ++ lbrace :: (" t: x ").data ++ rbrace ::
        (" = useTranslation(").data ++ squote :: ("common").data ++ [dquote, ')']) := by
    decide
  have h := quote_flexibility_and_nonempty.2.2.1 _ _ hmem
  exact ⟨h.2.1, h.2.2⟩

/-- C2 counterexample: the call pattern requires an ASCII letter as the
second alias character, so the token t1(key) with a digit second character,
and likewise t_x(key) with an underscore, produce no extracted entry at
all, against the claim that any word character may follow the t. -/
theorem callPattern_wordChar_counterexample :
    parseFileWithMapping [] (("f.tsx").data)
      ('t' :: '1' :: '(' :: squote :: ("key").data ++ [squote, ')']) = [] ∧
    parseFileWithMapping [] (("f.tsx").data)
      ('t' :: '_' :: 'x' :: '(' :: squote :: ("key").data ++ [squote, ')']) = [] := by
  decide

/-- C2 amended: the Key Resolver matches every token whose alias is a
lowercase t followed by an ASCII letter and then a run of ASCII
alphanumerics, immediately followed (up to whitespace) by a single-argument
call with one quoted literal, and produces one Extracted Entry per match;
tokens whose second alias character is a digit or an underscore are not
matched. -/
theorem callPattern_matches (p : CallParts) (h : p.WF) (m : GoMap) (path : Str) :
    scanCalls p.text = [(p.tVar, p.key)] ∧
    parseFileWithMapping m path p.text =
      [{ Key := p.key, Namespace := resolveNamespace m p.tVar, File := path }] ∧
    scanCalls ('t' :: '1' :: '(' :: squote :: ("key").data ++ [squote, ')']) = [] ∧
    scanCalls ('t' :: '_' :: 'x' :: '(' :: squote :: ("key").data ++ [squote, ')']) = [] := by
  have hs := scanCalls_callText p h
  refine ⟨hs, ?_, by decide, by decide⟩
  unfold parseFileWithMapping
  rw [hs]
  rfl

theorem callPattern_matches_witness :
    scanCalls (CallParts.text ⟨[], [], [], squote, squote, 'A', ("gent").data, ("key").data⟩) =
      [(('t' :: 'A' :: ("gent").data), ("key").data)] := by
  have h := callPattern_matches ⟨[], [], [], squote, squote, 'A', ("gent").data, ("key").data⟩
    (by refine ⟨?_, ?_, ?_, ?_, ?_, ?_, ?_, ?_, ?_⟩ <;> decide) [] []
  exact h.1

theorem mergePair_lookup_ne (m : GoMap) (k v k2 : Str) (h : k2 ≠ k) :
    goLookup (mergePair m k v) k2 = goLookup m k2 := by
  unfold mergePair
  cases hm : goLookup m k with
  | none => exact goLookup_insert_ne m k k2 v h
  | some e =>
    show goLookup (if e = [] ∧ v ≠ [] then goInsert m k v else m) k2 = goLookup m k2
    by_cases hev : e = [] ∧ v ≠ []
    · rw [if_pos hev]
      exact goLookup_insert_ne m k k2 v h
    · rw [if_neg hev]

theorem mergePair_lookup_self (m : GoMap) (k v : Str) :
    goLookup (mergePair m k v) k = mergeStep (goLookup m k) v := by
  unfold mergePair mergeStep
  cases hm : goLookup m k with
  | none => exact goLookup_insert_self m k v
  | some e =>
    show goLookup (if e = [] ∧ v ≠ [] then goInsert m k v else m) k =
      if e = [] ∧ v ≠ [] then some v else some e
    by_cases hev : e = [] ∧ v ≠ []
    · rw [if_pos hev, if_pos hev, goLookup_insert_self]
    · rw [if_neg hev, if_neg hev]
      exact hm

theorem goLookup_eq_none_of_not_mem {α β : Type} [DecidableEq α] :
    ∀ (m : List (α × β)) (k : α), k ∉ m.map Prod.fst → goLookup m k = none := by
  intro m
  induction m with
  | nil => intro k _; rfl
  | cons a m ih =>
    intro k hk
    simp only [List.map_cons, List.mem_cons] at hk
    push_neg at hk
    unfold goLookup
    rw [if_neg hk.1]
    exact ih k hk.2

theorem mergeFile_lookup (f : List (Str × Str)) :
    ∀ (m : GoMap) (k : Str), (f.map Prod.fst).Nodup →
    goLookup (mergeFile m f) k =
      match goLookup f k with
      | none => goLookup m k
      | some v => mergeStep (goLookup m k) v := by
  induction f with
  | nil => intro m k _; rfl
  | cons a f ih =>
    intro m k hnd
    simp only [List.map_cons, List.nodup_cons] at hnd
    obtain ⟨ha, hf⟩ := hnd
    have hstep : mergeFile m (a :: f) = mergeFile (mergePair m a.1 a.2) f := rfl
    rw [hstep, ih (mergePair m a.1 a.2) k hf]
    by_cases hk : k = a.1
    · have hnone : goLookup f k = none := by
        apply goLookup_eq_none_of_not_mem
        intro hmem
        rw [hk] at hmem
        exact ha hmem
      have hlook : goLookup (a :: f) k = some a.2 := by
        show (if k = a.1 then some a.2 else goLookup f k) = some a.2
        rw [if_pos hk]
      rw [hnone, hlook]
      rw [hk]
      exact mergePair_lookup_self m a.1 a.2
    · have hlook : goLookup (a :: f) k = goLookup f k := by
        show (if k = a.1 then some a.2 else goLookup f k) = goLookup f k
        rw [if_neg hk]
      rw [hlook, mergePair_lookup_ne m a.1 a.2 k hk]

theorem foldl_mergeFile_lookup :
    ∀ (fs : List (List (Str × Str))) (m : GoMap) (k : Str),
    (∀ f ∈ fs, (f.map Prod.fst).Nodup) →
    goLookup (fs.foldl mergeFile m) k = (valuesOf k fs).foldl mergeStep (goLookup m k) := by
  intro fs
  induction fs with
  | nil => intro m k _; rfl
  | cons f fs ih =>
    intro m k hnd
    show goLookup (fs.foldl mergeFile (mergeFile m f)) k = _
    rw [ih (mergeFile m f) k fun g hg => hnd g (List.mem_cons_of_mem f hg)]
    rw [mergeFile_lookup f m k (hnd f (List.mem_cons_self f fs))]
    cases hlf : goLookup f k with
    | none =>
      have : valuesOf k (f :: fs) = valuesOf k fs := by
        simp only [valuesOf, List.filterMap_cons, hlf]
      rw [this]
    | some v =>
      have : valuesOf k (f :: fs) = v :: valuesOf k fs := by
        simp only [valuesOf, List.filterMap_cons, hlf]
      rw [this]
      rfl

theorem foldl_mergeStep_nonempty {e : Str} (he : e ≠ []) :
    ∀ vs : List Str, vs.foldl mergeStep (some e) = some e := by
  intro vs
  induction vs with
  | nil => rfl
  | cons v vs ih =>
    show vs.foldl mergeStep (mergeStep (some e) v) = some e
    have hstep : mergeStep (some e) v = some e := by
      show (if e = [] ∧ v ≠ [] then some v else some e) = some e
      rw [if_neg (by simp [he])]
    rw [hstep]
    exact ih

theorem foldl_mergeStep_empty :
    ∀ vs : List Str, vs.foldl mergeStep (some []) =
      orO (vs.find? fun v => decide (v ≠ [])) (some []) := by
  intro vs
  induction vs with
  | nil => rfl
  | cons v vs ih =>
    show vs.foldl mergeStep (mergeStep (some []) v) = _
    by_cases hv : v = []
    · subst hv
      have hstep : mergeStep (some ([] : Str)) [] = some [] := by
        show (if ([] : Str) = [] ∧ ([] : Str) ≠ [] then some ([] : Str) else some []) = some []
        rw [if_neg (by simp)]
      rw [hstep, ih]
      have : List.find? (fun v => decide (v ≠ [])) (([] : Str) :: vs) =
          List.find? (fun v => decide (v ≠ [])) vs := by
        rw [List.find?_cons_of_neg]
        simp
      rw [this]
    · have hstep : mergeStep (some ([] : Str)) v = some v := by
        show (if ([] : Str) = [] ∧ v ≠ [] then some v else some []) = some v
        rw [if_pos (by simp [hv])]
      rw [hstep, foldl_mergeStep_nonempty hv]
      have : List.find? (fun v2 => decide (v2 ≠ [])) (v :: vs) = some v := by
        rw [List.find?_cons_of_pos]
        simp [hv]
      rw [this]
      rfl

theorem mergeVals_firstNonEmpty : ∀ vs : List Str,
    mergeVals vs = orO (vs.find? fun v => decide (v ≠ [])) vs.head? := by
  intro vs
  cases vs with
  | nil => rfl
  | cons v vs =>
    show vs.foldl mergeStep (mergeStep none v) = _
    by_cases hv : v = []
    · subst hv
      rw [show mergeStep none [] = some [] from rfl, foldl_mergeStep_empty vs]
      have : List.find? (fun v => decide (v ≠ [])) (([] : Str) :: vs) =
          List.find? (fun v => decide (v ≠ [])) vs := by
        rw [List.find?_cons_of_neg]
        simp
      rw [this]
      rfl
    · rw [show mergeStep none v = some v from rfl, foldl_mergeStep_nonempty hv]
      have : List.find? (fun v2 => decide (v2 ≠ [])) (v :: vs) = some v := by
        rw [List.find?_cons_of_pos]
        simp [hv]
      rw [this]
      rfl

/-- C5: the merged value of each key is the fold of the merge policy over
the values the key has in file order; equivalently, the first non-empty
value in file order wins, and if all values are empty the first (empty)
value is kept. -/
theorem mergePolicy_perKey (fs : List (List (Str × Str)))
    (hnd : ∀ f ∈ fs, (f.map Prod.fst).Nodup) (k : Str) :
    goLookup (mergeJSONFilesPure fs) k = mergeVals (valuesOf k fs) ∧
    mergeVals (valuesOf k fs) =
      orO ((valuesOf k fs).find? fun v => decide (v ≠ [])) (valuesOf k fs).head? := by
  constructor
  · unfold mergeJSONFilesPure mergeVals
    rw [foldl_mergeFile_lookup fs [] k hnd]
    rfl
  · exact mergeVals_firstNonEmpty _

theorem mergePolicy_perKey_witness :
    goLookup (mergeJSONFilesPure
        [[((("a").data), ([] : Str)), ((("b").data), ("x").data)],
         [((("a").data), ("y").data), ((("b").data), ("z").data)]]) (("a").data) =
      some (("y").data) ∧
    goLookup (mergeJSONFilesPure
        [[((("a").data), ([] : Str)), ((("b").data), ("x").data)],
         [((("a").data), ("y").data), ((("b").data), ("z").data)]]) (("b").data) =
      some (("x").data) := by
  constructor
  · exact (mergePolicy_perKey
      [[((("a").data), ([] : Str)), ((("b").data), ("x").data)],
       [((("a").data), ("y").data), ((("b").data), ("z").data)]]
      (by decide) (("a").data)).1.trans (by decide)
  · exact (mergePolicy_perKey
      [[((("a").data), ([] : Str)), ((("b").data), ("x").data)],
       [((("a").data), ("y").data), ((("b").data), ("z").data)]]
      (by decide) (("b").data)).1.trans (by decide)

theorem mergePair_nodup (m : GoMap) (h : (m.map Prod.fst).Nodup) (k v : Str) :
    ((mergePair m k v).map Prod.fst).Nodup := by
  unfold mergePair
  cases goLookup m k with
  | none => exact goInsert_nodup m h k v
  | some e =>
    show ((if e = [] ∧ v ≠ [] then goInsert m k v else m).map Prod.fst).Nodup
    by_cases hev : e = [] ∧ v ≠ []
    · rw [if_pos hev]
      exact goInsert_nodup m h k v
    · rw [if_neg hev]
      exact h

theorem mergeFile_nodup (f : List (Str × Str)) :
    ∀ m : GoMap, (m.map Prod.fst).Nodup → ((mergeFile m f).map Prod.fst).Nodup := by
  induction f with
  | nil => intro m h; exact h
  | cons a f ih =>
    intro m h
    exact ih (mergePair m a.1 a.2) (mergePair_nodup m h a.1 a.2)

theorem mergeJSONFilesPure_nodup (fs : List (List (Str × Str))) :
    ((mergeJSONFilesPure fs).map Prod.fst).Nodup := by
  unfold mergeJSONFilesPure
  have hgen : ∀ (l : List (List (Str × Str))) (m : GoMap), (m.map Prod.fst).Nodup →
      ((l.foldl mergeFile m).map Prod.fst).Nodup := by
    intro l
    induction l with
    | nil => intro m h; exact h
    | cons f l ih => intro m h; exact ih (mergeFile m f) (mergeFile_nodup f m h)
  exact hgen fs [] (by simp)

theorem mergeVals_optToList (x : Option Str) : mergeVals (optToList x) = x := by
  cases x <;> rfl

theorem mergeVals_append (vs ws : List Str) :
    mergeVals (vs ++ ws) = ws.foldl mergeStep (mergeVals vs) := by
  unfold mergeVals
  rw [List.foldl_append]

theorem valuesOf_cons (k : Str) (f : List (Str × Str)) (fs : List (List (Str × Str))) :
    valuesOf k (f :: fs) = optToList (goLookup f k) ++ valuesOf k fs := by
  unfold valuesOf
  cases hf : goLookup f k with
  | none => simp only [List.filterMap_cons, hf, optToList, List.nil_append]
  | some v => simp only [List.filterMap_cons, hf, optToList, List.cons_append, List.nil_append]

theorem valuesOf_append (k : Str) (fs1 fs2 : List (List (Str × Str))) :
    valuesOf k (fs1 ++ fs2) = valuesOf k fs1 ++ valuesOf k fs2 := by
  unfold valuesOf
  rw [List.filterMap_append]

/-- C7: merging [A, B] and then merging the result with [C] gives, for
every key, the same value as merging [A, B, C] directly: the
first-non-empty-wins policy is independent of batching as long as overall
file order is preserved. -/
theorem mergeBatching (A B C : List (Str × Str))
    (hA : (A.map Prod.fst).Nodup) (hB : (B.map Prod.fst).Nodup)
    (hC : (C.map Prod.fst).Nodup) (k : Str) :
    goLookup (mergeJSONFilesPure [mergeJSONFilesPure [A, B], C]) k =
      goLookup (mergeJSONFilesPure [A, B, C]) k := by
  have hmemAB : ∀ f ∈ [A, B], (f.map Prod.fst).Nodup := by
    intro f hf
    rcases List.mem_cons.mp hf with h | h
    · rw [h]; exact hA
    · rcases List.mem_cons.mp h with h | h
      · rw [h]; exact hB
      · exact absurd h (List.not_mem_nil f)
  have hmemL : ∀ f ∈ [mergeJSONFilesPure [A, B], C], (f.map Prod.fst).Nodup := by
    intro f hf
    rcases List.mem_cons.mp hf with h | h
    · rw [h]; exact mergeJSONFilesPure_nodup [A, B]
    · rcases List.mem_cons.mp h with h | h
      · rw [h]; exact hC
      · exact absurd h (List.not_mem_nil f)
  have hmemR : ∀ f ∈ [A, B, C], (f.map Prod.fst).Nodup := by
    intro f hf
    rcases List.mem_cons.mp hf with h | h
    · rw [h]; exact hA
    · rcases List.mem_cons.mp h with h | h
      · rw [h]; exact hB
      · rcases List.mem_cons.mp h with h | h
        · rw [h]; exact hC
        · exact absurd h (List.not_mem_nil f)
  rw [(mergePolicy_perKey [mergeJSONFilesPure [A, B], C] hmemL k).1,
    (mergePolicy_perKey [A, B, C] hmemR k).1,
    valuesOf_cons k (mergeJSONFilesPure [A, B]) [C],
    (mergePolicy_perKey [A, B] hmemAB k).1,
    mergeVals_append, mergeVals_optToList, ← mergeVals_append, ← valuesOf_append]
  rfl

theorem mergeBatching_witness :
    goLookup (mergeJSONFilesPure
        [mergeJSONFilesPure [[((("a").data), ([] : Str))], [((("a").data), ("y").data)]],
         [((("a").data), ("z").data)]]) (("a").data) =
      goLookup (mergeJSONFilesPure
        [[((("a").data), ([] : Str))], [((("a").data), ("y").data)],
         [((("a").data), ("z").data)]]) (("a").data) :=
  mergeBatching [((("a").data), ([] : Str))] [((("a").data), ("y").data)]
    [((("a").data), ("z").data)] (by decide) (by decide) (by decide) (("a").data)

theorem firstError_none_iff (fsys : FileSystem) (args : List Str) :
    firstError fsys args = none ↔ ∀ a ∈ args, validateArg fsys a = none := by
  unfold firstError
  exact List.findSome?_eq_none_iff

theorem validateArg_none_iff (fsys : FileSystem) (a : Str) :
    validateArg fsys a = none ↔
      ((".json").data.isSuffixOf a = true ∧ ∃ c, goLookup fsys a = some c) := by
  unfold validateArg
  by_cases hs : (".json").data.isSuffixOf a
  · rw [if_neg (by simp [hs])]
    cases hl : goLookup fsys a with
    | none => simp [hs, hl]
    | some c => simp [hs, hl]
  · rw [if_pos (by simp [hs])]
    simp [hs]

theorem readAndMerge_ok_iff (fsys : FileSystem) :
    ∀ (args : List Str) (init : GoMap),
    (∃ m, args.foldlM
        (fun m2 a =>
          match goLookup fsys a with
          | none => Except.error (("failed to read file ").data ++ a)
          | some none => Except.error (("failed to parse JSON in file ").data ++ a)
          | some (some fdata) => Except.ok (mergeFile m2 fdata)) init =
      Except.ok m) ↔ ∀ a ∈ args, ∃ f, goLookup fsys a = some (some f) := by
  intro args
  induction args with
  | nil =>
    intro init
    constructor
    · intro _ a ha
      exact absurd ha (List.not_mem_nil a)
    · intro _
      exact ⟨init, rfl⟩
  | cons a args ih =>
    intro init
    rw [List.foldlM_cons]
    cases hl : goLookup fsys a with
    | none =>
      constructor
      · rintro ⟨m, hm⟩
        exact Except.noConfusion hm
      · intro hall
        obtain ⟨f, hf⟩ := hall a (List.mem_cons_self a args)
        rw [hl] at hf
        exact Option.noConfusion hf
    | some c =>
      cases c with
      | none =>
        constructor
        · rintro ⟨m, hm⟩
          exact Except.noConfusion hm
        · intro hall
          obtain ⟨f, hf⟩ := hall a (List.mem_cons_self a args)
          rw [hl] at hf
          have := Option.some.inj hf
          exact Option.noConfusion this
      | some fdata =>
        constructor
        · rintro ⟨m, hm⟩
          intro a2 ha2
          rcases List.mem_cons.mp ha2 with h | h
          · exact ⟨fdata, h ▸ hl⟩
          · exact ((ih (mergeFile init fdata)).mp ⟨m, hm⟩) a2 h
        · intro hall
          obtain ⟨m, hm⟩ := (ih (mergeFile init fdata)).mpr
            fun a2 ha2 => hall a2 (List.mem_cons_of_mem a ha2)
          exact ⟨m, hm⟩

/-- C6: the merge command validates every input path (extension and
existence) before reading any content: a validation failure is reported as
such for every file-system content whatsoever; with validation passed, an
unparseable file aborts with a merge error; and an output is produced
exactly when every argument has the extension, exists and parses, so no
error leaves a partial output. -/
theorem joinValidation (fsys : FileSystem) (args : List Str) (flag : Option Str)
    (rnd : Str) :
    (∀ e, firstError fsys args = some e →
      runJoinI18n fsys args flag rnd = Except.error e) ∧
    ((∃ a ∈ args, ¬ ((".json").data.isSuffixOf a = true) ∨ goLookup fsys a = none) →
      ∃ e, runJoinI18n fsys args flag rnd = Except.error e) ∧
    (firstError fsys args = none → ∀ e2, readAndMerge fsys args = Except.error e2 →
      runJoinI18n fsys args flag rnd = Except.error ((("Error merging files: ").data) ++ e2)) ∧
    ((∃ out merged, runJoinI18n fsys args flag rnd = Except.ok (out, merged)) ↔
      ∀ a ∈ args, ((".json").data.isSuffixOf a = true) ∧
        ∃ f, goLookup fsys a = some (some f)) := by
  refine ⟨?_, ?_, ?_, ?_⟩
  · intro e he
    unfold runJoinI18n
    rw [he]
  · intro hbad
    obtain ⟨a, ha, hcase⟩ := hbad
    cases hfe : firstError fsys args with
    | some e =>
      exact ⟨e, by unfold runJoinI18n; rw [hfe]⟩
    | none =>
      exfalso
      have hva := (firstError_none_iff fsys args).mp hfe a ha
      obtain ⟨hsuf, c, hc⟩ := (validateArg_none_iff fsys a).mp hva
      rcases hcase with h | h
      · exact h hsuf
      · rw [h] at hc
        exact Option.noConfusion hc
  · intro hfe e2 hrm
    unfold runJoinI18n
    rw [hfe, hrm]
  · constructor
    · rintro ⟨out, merged, hok⟩
      unfold runJoinI18n at hok
      cases hfe : firstError fsys args with
      | some e => rw [hfe] at hok; exact absurd hok (by simp)
      | none =>
        rw [hfe] at hok
        cases hrm : readAndMerge fsys args with
        | error e2 => rw [hrm] at hok; exact absurd hok (by simp)
        | ok m =>
          intro a ha
          have hva := (firstError_none_iff fsys args).mp hfe a ha
          obtain ⟨hsuf, c, hc⟩ := (validateArg_none_iff fsys a).mp hva
          refine ⟨hsuf, ?_⟩
          have hex : ∃ m2, readAndMerge fsys args = Except.ok m2 := ⟨m, hrm⟩
          exact (readAndMerge_ok_iff fsys args []).mp hex a ha
    · intro hall
      have hfe : firstError fsys args = none := by
        rw [firstError_none_iff]
        intro a ha
        rw [validateArg_none_iff]
        obtain ⟨hsuf, f, hf⟩ := hall a ha
        exact ⟨hsuf, some f, hf⟩
      obtain ⟨m, hm⟩ := (readAndMerge_ok_iff fsys args []).mpr
        fun a ha => (hall a ha).2
      unfold runJoinI18n
      rw [hfe, show readAndMerge fsys args = Except.ok m from hm]
      exact ⟨_, _, rfl⟩

theorem joinValidation_witness :
    runJoinI18n [((("a.json").data), some [((("k").data), ("v").data)])]
      [(("a.json").data), (("missing.json").data)] none (("out").data) =
      Except.error ((("file does not exist: ").data) ++ ("missing.json").data) := by
  apply (joinValidation [((("a.json").data), some [((("k").data), ("v").data)])]
    [(("a.json").data), (("missing.json").data)] none (("out").data)).1
  decide

theorem keysFor_mem (keys : List TranslationKey) (ns : Str) (k : Str) :
    k ∈ keysFor keys ns ↔ ∃ e ∈ keys, e.Namespace = ns ∧ e.Key = k := by
  unfold keysFor
  rw [List.mem_map]
  constructor
  · rintro ⟨e, he, hk⟩
    rw [List.mem_filter] at he
    exact ⟨e, he.1, by simpa using he.2, hk⟩
  · rintro ⟨e, he, hns, hk⟩
    exact ⟨e, List.mem_filter.mpr ⟨he, by simpa using hns⟩, hk⟩

theorem sortedDedup_nodup (l : List Str) : (sortedDedup l).Nodup := by
  unfold sortedDedup
  exact (List.perm_insertionSort _ l.dedup).nodup_iff.mpr l.nodup_dedup

theorem sortedDedup_sorted (l : List Str) :
    List.Sorted (fun a b : Str => a ≤ b) (sortedDedup l) :=
  List.sorted_insertionSort _ l.dedup

theorem sortedDedup_mem (l : List Str) (k : Str) : k ∈ sortedDedup l ↔ k ∈ l := by
  unfold sortedDedup
  rw [(List.perm_insertionSort _ l.dedup).mem_iff]
  exact List.mem_dedup

/-- C4: the persisted dictionary of a namespace holds each distinct
extracted key of that namespace exactly once (no duplicates, sorted
ascending, membership equivalent to extraction), every value is the empty
string, the serialized bytes are the two-space-indented JSON object over
that sorted key list, and the file is named by the namespace with the
fixed json extension. -/
theorem generation_sorted_unique (keys : List TranslationKey) (ns : Str)
    (h : keysFor keys ns ≠ []) :
    genContent keys ns =
      some (marshalPairs ((sortedDedup (keysFor keys ns)).map fun k => (k, ([] : Str)))) ∧
    (sortedDedup (keysFor keys ns)).Nodup ∧
    List.Sorted (fun a b : Str => a ≤ b) (sortedDedup (keysFor keys ns)) ∧
    (∀ k, k ∈ sortedDedup (keysFor keys ns) ↔ ∃ e ∈ keys, e.Namespace = ns ∧ e.Key = k) ∧
    (∀ kv ∈ (sortedDedup (keysFor keys ns)).map fun k => (k, ([] : Str)), kv.2 = []) ∧
    outputFileName ns = ns ++ (".json").data := by
  refine ⟨?_, sortedDedup_nodup _, sortedDedup_sorted _, ?_, ?_, rfl⟩
  · unfold genContent
    cases hk : keysFor keys ns with
    | nil => exact absurd hk h
    | cons a l => rfl
  · intro k
    rw [sortedDedup_mem]
    exact keysFor_mem keys ns k
  · intro kv hkv
    rw [List.mem_map] at hkv
    obtain ⟨k, _, hk⟩ := hkv
    rw [← hk]

theorem generation_sorted_unique_witness :
    genContent [⟨("b").data, ("user").data, ("f.tsx").data⟩,
        ⟨("a").data, ("user").data, ("f.tsx").data⟩,
        ⟨("b").data, ("user").data, ("g.tsx").data⟩] (("user").data) =
      some (marshalPairs [((("a").data), ([] : Str)), ((("b").data), ([] : Str))]) := by
  have h := generation_sorted_unique [⟨("b").data, ("user").data, ("f.tsx").data⟩,
    ⟨("a").data, ("user").data, ("f.tsx").data⟩,
    ⟨("b").data, ("user").data, ("g.tsx").data⟩] (("user").data) (by decide)
  exact h.1.trans (by decide)

theorem sortedDedup_perm {l1 l2 : List Str} (h : l1.Perm l2) :
    sortedDedup l1 = sortedDedup l2 := by
  have hp : (sortedDedup l1).Perm (sortedDedup l2) := by
    refine ((List.perm_insertionSort _ l1.dedup).trans h.dedup).trans
      (List.perm_insertionSort _ l2.dedup).symm
  exact List.eq_of_perm_of_sorted hp (sortedDedup_sorted l1) (sortedDedup_sorted l2)

theorem genContent_perm {k1 k2 : List TranslationKey} (h : k1.Perm k2) (ns : Str) :
    genContent k1 ns = genContent k2 ns := by
  have hkf : (keysFor k1 ns).Perm (keysFor k2 ns) := (h.filter _).map _
  have hsd : sortedDedup (keysFor k1 ns) = sortedDedup (keysFor k2 ns) :=
    sortedDedup_perm hkf
  unfold genContent
  cases hk1 : keysFor k1 ns with
  | nil =>
    have hk2 : keysFor k2 ns = [] := by
      rw [hk1] at hkf
      exact hkf.symm.eq_nil
    rw [hk2]
  | cons a l =>
    cases hk2 : keysFor k2 ns with
    | nil =>
      rw [hk2, hk1] at hkf
      exact absurd hkf.length_eq (by simp)
    | cons b l2 =>
      show some (marshalPairs ((sortedDedup (a :: l)).map fun k => (k, ([] : Str)))) =
        some (marshalPairs ((sortedDedup (b :: l2)).map fun k => (k, ([] : Str))))
      rw [← hk1, ← hk2, hsd]

/-- C8: the bytes generated for every namespace depend only on the multiset
of extracted entries, not on the order of the entry list or of any
in-memory map iteration; hence re-running extraction over an unchanged
corpus writes byte-identical files. -/
theorem extraction_deterministic (files : List (Str × Str))
    (keys2 : List TranslationKey)
    (hperm : (extractTranslationKeys files).Perm keys2) (ns : Str) :
    genContent (extractTranslationKeys files) ns = genContent keys2 ns ∧
    genContent (extractTranslationKeys files) ns =
      genContent (extractTranslationKeys files) ns :=
  ⟨genContent_perm hperm ns, rfl⟩

theorem extraction_deterministic_witness :
    genContent (extractTranslationKeys
        [((("a.tsx").data), (("tUser(").data ++ squote :: ("x").data ++ [squote, ')']))])
        (("user").data) =
      genContent ((extractTranslationKeys
        [((("a.tsx").data), (("tUser(").data ++ squote :: ("x").data ++ [squote, ')']))]).reverse)
        (("user").data) :=
  (extraction_deterministic
    [((("a.tsx").data), (("tUser(").data ++ squote :: ("x").data ++ [squote, ')']))]
    _ (List.reverse_perm _).symm (("user").data)).1

theorem head_append_of_ne_nil {a : Str} (ha : a ≠ []) (b : Str) :
    (a ++ b).head? = a.head? := by
  cases a with
  | nil => exact absurd rfl ha
  | cons c cs => rfl

theorem drop_one_append {a : Str} (ha : a ≠ []) (b : Str) :
    (a ++ b).drop 1 = a.drop 1 ++ b := by
  cases a with
  | nil => exact absurd rfl ha
  | cons c cs => rfl

/-- Analysis of a literal component applied at a point a ++ DQ of the
input, where DQ is the untouched declaration text (head c0): unless the
component lies wholly inside a, the match fails, provided c0 appears
nowhere in the literal after its first character and, when a is empty, not
as its first character either. -/
theorem litP_boundary {pat a DQ r : Str} {c0 : Char}
    (hDQ : DQ.head? = some c0)
    (hdrop : c0 ∉ pat.drop 1)
    (hhead : a = [] → pat.head? ≠ some c0)
    (h : litP pat (a ++ DQ) = some r) :
    ∃ a2, a = pat ++ a2 ∧ r = a2 ++ DQ := by
  have heq : a ++ DQ = pat ++ r := litP_eq_some.mp h
  rcases List.append_eq_append_iff.mp heq with ⟨t, hpat, hDQt⟩ | ⟨a2, ha, hr⟩
  · cases t with
    | nil =>
      rw [List.append_nil] at hpat
      exact ⟨[], by simp [hpat], by simp [hDQt]⟩
    | cons tc ts =>
      exfalso
      have hhd : tc = c0 := by
        rw [hDQt] at hDQ
        exact Option.some.inj hDQ
      subst hhd
      cases a with
      | nil =>
        apply hhead rfl
        rw [hpat]
        rfl
      | cons ac as =>
        apply hdrop
        rw [hpat, drop_one_append (by simp)]
        exact List.mem_append_right _ (List.mem_cons_self _ _)
  · exact ⟨a2, ha, hr⟩

/-- Either every element satisfies p (and dropWhile is empty), or the list
splits at the first failing element. -/
theorem dropWhile_view (p : Char → Bool) : ∀ l : Str,
    (l.dropWhile p = [] ∧ ∀ c ∈ l, p c = true) ∨
    ∃ c cs, l.dropWhile p = c :: cs ∧ p c = false ∧ l.takeWhile p ++ c :: cs = l ∧
      (∀ c2 ∈ l.takeWhile p, p c2 = true) := by
  intro l
  induction l with
  | nil => exact Or.inl ⟨rfl, by simp⟩
  | cons a l ih =>
    by_cases ha : p a
    · rcases ih with ⟨hd, hall⟩ | ⟨c, cs, hd, hc, hsplit, htk⟩
      · refine Or.inl ⟨?_, ?_⟩
        · rw [List.dropWhile_cons_of_pos ha, hd]
        · intro c hc
          rcases List.mem_cons.mp hc with h | h
          · rw [h]; exact ha
          · exact hall c h
      · refine Or.inr ⟨c, cs, ?_, hc, ?_, ?_⟩
        · rw [List.dropWhile_cons_of_pos ha, hd]
        · rw [List.takeWhile_cons_of_pos ha, List.cons_append, hsplit]
        · intro c2 hc2
          rw [List.takeWhile_cons_of_pos ha] at hc2
          rcases List.mem_cons.mp hc2 with h | h
          · rw [h]; exact ha
          · exact htk c2 h
    · refine Or.inr ⟨a, l, ?_, by simpa using ha, ?_, ?_⟩
      · rw [List.dropWhile_cons_of_neg ha]
      · rw [List.takeWhile_cons_of_neg ha]
        rfl
      · intro c2 hc2
        rw [List.takeWhile_cons_of_neg ha] at hc2
        exact absurd hc2 (List.not_mem_nil c2)

theorem text_split_pre (d : DeclParts) (q : Str) :
    d.text ++ q = d.pre ++ d.q1 :: (d.ns ++ d.q2 :: (d.w9 ++ ')' :: q)) := by
  simp [DeclParts.text, DeclParts.pre, List.append_assoc]

theorem text_split_brace (d : DeclParts) (q : Str) :
    d.text ++ q = ("const").data ++ (d.w1 ++ lbrace :: d.afterBrace q) := by
  simp [DeclParts.text, DeclParts.afterBrace, List.append_assoc]

theorem pre_noquote (d : DeclParts) (h : d.WF) : ∀ c ∈ d.pre, isQuote c = false := by
  obtain ⟨h1, h2, h3, h4, h5, h6, h7, h8, h9, hq1, hq2, hx0, hxw, hns0, hnsq⟩ := h
  simp only [DeclParts.pre, List.forall_mem_append, List.forall_mem_cons]
  repeat' constructor
  all_goals
    first
    | decide
    | (intro c hc
       first
       | exact space_not_quote (h1 c hc)
       | exact space_not_quote (h2 c hc)
       | exact space_not_quote (h3 c hc)
       | exact space_not_quote (h4 c hc)
       | exact space_not_quote (h5 c hc)
       | exact space_not_quote (h6 c hc)
       | exact space_not_quote (h7 c hc)
       | exact space_not_quote (h8 c hc)
       | exact word_not_quote (hxw c hc))

theorem spacesP_boundary {DQ : Str} {c0 : Char} (hDQ : DQ.head? = some c0)
    (hc0 : isGoSpace c0 = false) (a : Str) : spacesP (a ++ DQ) = spacesP a ++ DQ := by
  cases DQ with
  | nil => exact Option.noConfusion hDQ
  | cons x xs =>
    have hx : x = c0 := Option.some.inj hDQ
    subst hx
    exact dropWhile_append_stop hc0 a xs

/-- No attempt of the declaration pattern that starts strictly before an
embedded well-formed declaration occurrence can consume part of it: any
successful match ends before the occurrence (under the namespace-safety
proviso).  This is the heart of the leftmost-scan argument. -/
theorem matchDeclAt_no_overlap (d : DeclParts) (hwf : d.WF) (hsafe : nsSafe d.ns = true)
    {p2 : Str} (hp2 : p2 ≠ []) {q : Str} {v : (Str × Str) × Str}
    (h : matchDeclAt (p2 ++ (d.text ++ q)) = some v) :
    ∃ p3, v.2 = p3 ++ (d.text ++ q) ∧ p3.length < p2.length := by
  have hlt := matchDeclAt_lt h
  have hpre := pre_noquote d hwf
  obtain ⟨hw1, hw2, hw3, hw4, hw5, hw6, hw7, hw8, hw9, hq1, hq2, hx0, hxw, hns0, hnsq⟩ := hwf
  have hDQ : (d.text ++ q).head? = some 'c' := rfl
  unfold matchDeclAt at h
  simp only [Option.bind_eq_some] at h
  obtain ⟨s1, h1, s2, h2, s3, h3, xv, hx, s4, h4, s5, h5, s6, h6, s7, h7, nsv, hns, s8, h8, hfin⟩ := h
  obtain ⟨a1, hp2e, hs1⟩ := litP_boundary hDQ (by decide) (fun he => absurd he hp2) h1
  subst hs1
  rw [spacesP_boundary hDQ (by decide) a1] at h2
  obtain ⟨a2, _, hs2⟩ := litP_boundary hDQ (by decide) (fun _ => by decide) h2
  subst hs2
  rw [spacesP_boundary hDQ (by decide) a2] at h3
  obtain ⟨a3, _, hs3⟩ := litP_boundary hDQ (by decide) (fun _ => by decide) h3
  subst hs3
  rw [spacesP_boundary hDQ (by decide) a3] at hx
  rcases dropWhile_view isWordChar (spacesP a3) with ⟨hdnil, hall⟩ | ⟨c1, cs1, hdcons, hc1, hsplit, htk⟩
  · exfalso
    have hxv2 : xv.2 = d.w1 ++ lbrace :: d.afterBrace q := by
      have hw := wordP_eq_some (show wordP (spacesP a3 ++ (d.text ++ q)) = some (xv.1, xv.2) from hx)
      rw [hw.2.2.2, dropWhile_append_all hall, text_split_brace,
        dropWhile_append_all (by decide : ∀ c ∈ ("const").data, isWordChar c = true)]
      exact dropWhile_nil_append (fun c hc => space_not_word (hw1 c hc)) (by decide) _
    rw [hxv2, spacesP_run hw1 (by decide)] at h4
    simp [litP] at h4
    exact absurd h4.1 (by decide)
  · have hxv2 : xv.2 = (c1 :: cs1) ++ (d.text ++ q) := by
      have hw := wordP_eq_some (show wordP (spacesP a3 ++ (d.text ++ q)) = some (xv.1, xv.2) from hx)
      rw [hw.2.2.2, ← hsplit, List.append_assoc, dropWhile_append_all htk, List.cons_append,
        List.dropWhile_cons_of_neg (by simp [hc1])]
    rw [hxv2, spacesP_boundary hDQ (by decide) (c1 :: cs1)] at h4
    obtain ⟨a4, _, hs4⟩ := litP_boundary hDQ (by decide) (fun _ => by decide) h4
    subst hs4
    rw [spacesP_boundary hDQ (by decide) a4] at h5
    obtain ⟨a5, _, hs5⟩ := litP_boundary hDQ (by decide) (fun _ => by decide) h5
    subst hs5
    rw [spacesP_boundary hDQ (by decide) a5] at h6
    obtain ⟨a6, _, hs6⟩ := litP_boundary hDQ (by decide) (fun _ => by decide) h6
    subst hs6
    rw [spacesP_boundary hDQ (by decide) a6] at h7
    obtain ⟨a7, _, hs7⟩ := litP_boundary hDQ (by decide) (fun _ => by decide) h7
    subst hs7
    rw [spacesP_boundary hDQ (by decide) a7] at hns
    obtain ⟨qa, qb, sx, hcons, hqa, hbne, hbtake, hsx⟩ :=
      quotedP_eq_some (show quotedP (spacesP a7 ++ (d.text ++ q)) = some (nsv.1, nsv.2) from hns)
    cases hA8 : spacesP a7 with
    | nil =>
      exfalso
      rw [hA8, List.nil_append] at hcons
      have hqac : 'c' = qa := by
        have hh := congrArg List.head? hcons
        rw [hDQ] at hh
        exact Option.some.inj hh
      rw [← hqac] at hqa
      exact absurd hqa (by decide)
    | cons a9h a9t =>
      rw [hA8, List.cons_append] at hcons
      obtain ⟨hqaeq, hsxeq⟩ := List.cons.inj hcons
      subst hqaeq
      subst hsxeq
      rcases dropWhile_view (fun c => !(isQuote c)) a9t with ⟨hdnil2, hallnq⟩ | ⟨qc, cs2, hdq, hqc, hsplit2, htk2⟩
      · exfalso
        have hprelem : ∀ c ∈ d.pre, (fun c => !(isQuote c)) c = true := by
          intro c hc
          simp [hpre c hc]
        have hnsv1 : nsv.1 = a9t ++ d.pre := by
          rw [hbtake, takeWhile_append_all hallnq, text_split_pre,
            takeWhile_append_all hprelem,
            List.takeWhile_cons_of_neg (by simp [hq1]), List.append_nil]
        rw [hnsv1, text_split_pre] at hsx
        rw [List.append_assoc a9t d.pre (qb :: nsv.2)] at hsx
        have hcanc := List.append_cancel_left hsx
        have hcanc2 := List.append_cancel_left hcanc
        obtain ⟨hqb, hrest⟩ := List.cons.inj hcanc2
        rw [← hrest] at h8
        rcases dropWhile_view isGoSpace d.ns with ⟨hdn, halls⟩ | ⟨c2, cs3, hdn2, hc2, hsplit3, htk3⟩
        · rw [spacesP_run halls (quote_not_space hq2)] at h8
          have hne : ¬ (d.q2 = ')') := quote_ne_rparen hq2
          simp [litP, hne] at h8
        · have hc2ne : ¬ (c2 = ')') := by
            have hsafe2 := hsafe
            unfold nsSafe at hsafe2
            rw [hdn2] at hsafe2
            simpa using hsafe2
          rw [← hsplit3, List.append_assoc, List.cons_append] at h8
          rw [spacesP_run htk3 hc2] at h8
          simp [litP, hc2ne] at h8
      · have hview : a9t ++ (d.text ++ q) =
            List.takeWhile (fun c => !(isQuote c)) a9t ++ (qc :: (cs2 ++ (d.text ++ q))) := by
          conv_lhs => rw [← hsplit2]
          simp [List.append_assoc]
        have hnsv1 : nsv.1 = a9t.takeWhile (fun c => !(isQuote c)) := by
          rw [hbtake, hview, takeWhile_append_all htk2,
            List.takeWhile_cons_of_neg (by simp [hqc]), List.append_nil]
        have hnsv2 : nsv.2 = cs2 ++ (d.text ++ q) := by
          rw [hnsv1, hview] at hsx
          have hcanc := List.append_cancel_left hsx
          exact ((List.cons.inj hcanc).2).symm
        rw [hnsv2, spacesP_boundary hDQ (by decide) cs2] at h8
        obtain ⟨a10, _, hs8⟩ := litP_boundary hDQ (by decide) (fun _ => by decide) h8
        refine ⟨a10, ?_, ?_⟩
        · obtain rfl := Option.some.inj hfin
          exact hs8
        · obtain rfl := Option.some.inj hfin
          have hv2 : s8.length < (p2 ++ (d.text ++ q)).length := hlt
          rw [hs8] at hv2
          simp only [List.length_append] at hv2
          omega

theorem foldl_insert_nodup : ∀ (l : List (Str × Str)) (m : GoMap),
    (m.map Prod.fst).Nodup →
    ((l.foldl (fun m2 kv => goInsert m2 kv.1 kv.2) m).map Prod.fst).Nodup := by
  intro l
  induction l with
  | nil => intro m h; exact h
  | cons a l ih =>
    intro m h
    simp only [List.foldl_cons]
    exact ih _ (goInsert_nodup m h a.1 a.2)

theorem orO_assoc {α : Type} (a b c : Option α) : orO a (orO b c) = orO (orO a b) c := by
  cases a <;> rfl

/-- The per-file alias map binds a key to its last declaration in the
file, whichever way its entries are enumerated. -/
theorem extract_lastVal (content : Str) (k : Str) :
    lastVal (extractUseTranslationDeclarations content) k = lastVal (scanDecls content) k := by
  have hnd : ((buildFileMap (scanDecls content)).map Prod.fst).Nodup := by
    unfold buildFileMap
    exact foldl_insert_nodup (scanDecls content) [] (by simp)
  unfold extractUseTranslationDeclarations
  rw [nodup_lastVal_eq_lookup _ hnd, buildFileMap_lookup]

theorem buildGlobal_foldl_lookup (k : Str) : ∀ (files : List (Str × Str)) (g : GoMap),
    goLookup (files.foldl (fun g2 f => mergeGlobal g2 (extractUseTranslationDeclarations f.2)) g) k
      = orO (lastVal ((files.map fun f => scanDecls f.2).flatten) k) (goLookup g k) := by
  intro files
  induction files with
  | nil => intro g; rfl
  | cons f files ih =>
    intro g
    simp only [List.foldl_cons, List.map_cons, List.flatten_cons]
    rw [ih, mergeGlobal_lookup, extract_lastVal, lastVal_append, ← orO_assoc]

/-- The global alias map binds a key to its last declaration across all
files in walk order. -/
theorem buildGlobalMap_lastVal (files : List (Str × Str)) (k : Str) :
    goLookup (buildGlobalMap files) k
      = lastVal ((files.map fun f => scanDecls f.2).flatten) k := by
  unfold buildGlobalMap
  rw [buildGlobal_foldl_lookup]
  cases lastVal ((files.map fun f => scanDecls f.2).flatten) k <;> rfl

theorem scanDecls_through_aux (d : DeclParts) (hwf : d.WF) (hsafe : nsSafe d.ns = true) :
    ∀ n : Nat, ∀ p : Str, p.length ≤ n → ∀ q : Str,
    ∃ l1, scanDecls (p ++ (d.text ++ q)) = l1 ++ (d.tVar, d.ns) :: scanDecls q := by
  intro n
  induction n with
  | zero =>
    intro p hp q
    cases p with
    | nil =>
      refine ⟨[], ?_⟩
      simp only [List.nil_append]
      exact scanDecls_some (matchDeclAt_declText d hwf q)
    | cons c rest => simp at hp
  | succ n ih =>
    intro p hp q
    cases p with
    | nil =>
      refine ⟨[], ?_⟩
      simp only [List.nil_append]
      exact scanDecls_some (matchDeclAt_declText d hwf q)
    | cons c rest =>
      cases hm : matchDeclAt ((c :: rest) ++ (d.text ++ q)) with
      | none =>
        rw [List.cons_append] at hm
        have hres := ih rest (by simp only [List.length_cons] at hp; omega) q
        rw [List.cons_append, scanDecls_none hm]
        exact hres
      | some v =>
        obtain ⟨p3, hv2, hlen⟩ := matchDeclAt_no_overlap d hwf hsafe (List.cons_ne_nil c rest) hm
        have hp3 : p3.length ≤ n := by
          simp only [List.length_cons] at hlen hp
          omega
        obtain ⟨l1, hl1⟩ := ih p3 hp3 q
        refine ⟨v.1 :: l1, ?_⟩
        rw [scanDecls_some hm, hv2, hl1, List.cons_append]

/-- Scanning any content that contains a safe declaration always reports
that declaration, after whatever the prefix yields. -/
theorem scanDecls_through (d : DeclParts) (hwf : d.WF) (hsafe : nsSafe d.ns = true)
    (p q : Str) :
    ∃ l1, scanDecls (p ++ (d.text ++ q)) = l1 ++ (d.tVar, d.ns) :: scanDecls q :=
  scanDecls_through_aux d hwf hsafe p.length p (le_refl _) q

/-- C3 (amended): if a file of the corpus contains a well-formed
declaration const { t: x } = useTranslation(q ns q) whose namespace does
not begin, after optional whitespace, with a closing parenthesis, and no
declaration scanned later (later in that file, or in a later file) binds
the same alias, then the global alias map after Declaration Collection
maps x to ns — the declaration scanned last wins. -/
theorem declarationCollection_lastWins
    (files pre post : List (Str × Str)) (path p q : Str) (d : DeclParts)
    (hwf : d.WF) (hsafe : nsSafe d.ns = true)
    (hfiles : files = pre ++ (path, p ++ (d.text ++ q)) :: post)
    (hq : ∀ kv ∈ scanDecls q, kv.1 ≠ d.tVar)
    (hpost : ∀ f ∈ post, ∀ kv ∈ scanDecls f.2, kv.1 ≠ d.tVar) :
    goLookup (buildGlobalMap files) d.tVar = some d.ns := by
  subst hfiles
  rw [buildGlobalMap_lastVal]
  simp only [List.map_append, List.map_cons, List.flatten_append, List.flatten_cons]
  rw [lastVal_append]
  obtain ⟨l1, hl1⟩ := scanDecls_through d hwf hsafe p q
  rw [hl1]
  have hpostn : lastVal ((post.map fun f => scanDecls f.2).flatten) d.tVar = none := by
    apply lastVal_none
    intro kv hkv
    obtain ⟨l2, hl2, hkvl⟩ := List.mem_flatten.mp hkv
    obtain ⟨f, hf, hfe⟩ := List.mem_map.mp hl2
    refine hpost f hf kv ?_
    rw [show scanDecls f.2 = l2 from hfe]
    exact hkvl
  have hqn : lastVal (scanDecls q) d.tVar = none :=
    lastVal_none fun kv hkv => hq kv hkv
  rw [lastVal_append, lastVal_append, lastVal_cons, hpostn, hqn]
  simp [orO_none, orO_some]

theorem declarationCollection_lastWins_witness :
    goLookup (buildGlobalMap [((("a.tsx").data), dWit.text)]) dWit.tVar = some dWit.ns := by
  have h := declarationCollection_lastWins
      [((("a.tsx").data), dWit.text)] [] [] (("a.tsx").data) [] [] dWit
      (by unfold DeclParts.WF; decide) (by decide) (by simp)
      (by intro kv hkv; cases hkv)
      (by intro f hf; cases hf)
  simpa using h

/-- C3 counterexample: the content cexContent contains, verbatim, the
well-formed declaration const { t: x } = useTranslation(')y'), whose
namespace starts with a closing parenthesis; an earlier unclosed quote
swallows it, and the global alias map does not bind x at all. -/
theorem declarationCollection_counterexample :
    cexD.WF ∧ nsSafe cexD.ns = false ∧
    cexContent = cexPrefix ++ (cexD.text ++ []) ∧
    scanDecls cexD.text = [(cexD.tVar, cexD.ns)] ∧
    goLookup (buildGlobalMap [((("f.tsx").data), cexContent)]) cexD.tVar = none := by
  refine ⟨by unfold DeclParts.WF; decide, by decide, rfl, by decide, by decide⟩
